import Mathlib

/-!
Verification development for the molecules builder
(source: emmet/qchem/molecules.py).

The builder consolidates raw task records into canonical molecule
documents: it extracts candidate property values from each task
according to a settings table, resolves conflicts per target field by
quality score and energy, selects a group identifier from the task ids,
builds provenance records for tracked fields, assembles the final
document and validates it before the upsert.

Modelling conventions:
* Python dicts with a fixed shape become structures; dicts used as
  maps become association lists (first binding wins on lookup).
* Python floats (energy values, quality scores) are modelled as Int;
  the code only compares and negates them, so any linear order with
  negation is faithful for the behaviour under study.
* Python string comparison and parsing are modelled on the char-list
  representation (String.data); comparisons are by code point exactly
  as in CPython.
* Fallible code returns Except String; the string is the Python
  exception (message shortened).
-/

/-- Value stored in a task payload / candidate property.  Python values
are arbitrary JSON-ish data; the builder only moves them around and, for
aggregated fields, collects them into a list, so atoms plus lists of
values are a faithful carrier. -/
inductive PValue where
  | int (n : Int)
  | str (s : String)
  | list (l : List PValue)
deriving Repr, Inhabited

mutual
def PValue.beq : PValue → PValue → Bool
  | .int a, .int b => decide (a = b)
  | .str a, .str b => decide (a = b)
  | .list as, .list bs => PValue.beqList as bs
  | _, _ => false
def PValue.beqList : List PValue → List PValue → Bool
  | [], [] => true
  | a :: as, b :: bs => PValue.beq a b && PValue.beqList as bs
  | _, _ => false
end

mutual
theorem PValue.eq_of_beq : ∀ {a b : PValue}, PValue.beq a b = true → a = b
  | .int _, .int _, h => by
    simp only [PValue.beq] at h; simp [of_decide_eq_true h]
  | .str _, .str _, h => by
    simp only [PValue.beq] at h; simp [of_decide_eq_true h]
  | .list as, .list bs, h => by
    simp only [PValue.beq] at h
    exact congrArg PValue.list (PValue.eqList_of_beqList h)
  | .int _, .str _, h => by simp [PValue.beq] at h
  | .int _, .list _, h => by simp [PValue.beq] at h
  | .str _, .int _, h => by simp [PValue.beq] at h
  | .str _, .list _, h => by simp [PValue.beq] at h
  | .list _, .int _, h => by simp [PValue.beq] at h
  | .list _, .str _, h => by simp [PValue.beq] at h
theorem PValue.eqList_of_beqList : ∀ {as bs : List PValue}, PValue.beqList as bs = true → as = bs
  | [], [], _ => rfl
  | a :: as, b :: bs, h => by
    simp only [PValue.beqList, Bool.and_eq_true] at h
    rw [PValue.eq_of_beq h.1, PValue.eqList_of_beqList h.2]
  | [], _ :: _, h => by simp [PValue.beqList] at h
  | _ :: _, [], h => by simp [PValue.beqList] at h
end

mutual
theorem PValue.beq_refl : ∀ (a : PValue), PValue.beq a a = true
  | .int _ => by simp [PValue.beq]
  | .str _ => by simp [PValue.beq]
  | .list as => by simp only [PValue.beq]; exact PValue.beqList_refl as
theorem PValue.beqList_refl : ∀ (as : List PValue), PValue.beqList as as = true
  | [] => rfl
  | a :: as => by
    simp only [PValue.beqList, Bool.and_eq_true]
    exact ⟨PValue.beq_refl a, PValue.beqList_refl as⟩
end

instance : DecidableEq PValue := fun a b =>
  decidable_of_iff (PValue.beq a b = true)
    ⟨PValue.eq_of_beq, fun h => h ▸ PValue.beq_refl a⟩

/-- A task identifier: the code accepts string ids and numeric ids
(ID_to_int branches on isinstance). -/
inductive TaskId where
  | str (s : String)
  | int (n : Int)
deriving DecidableEq, Repr, Inhabited

/-- The structured sort key produced by ID_to_int: a (chars, number)
pair for a string id, the bare number for a numeric id. -/
abbrev IDKey := (List Char × Int) ⊕ Int

/-! ### Code-point comparison of strings (CPython string ordering) -/

/-- Three-way comparison of chars by code point. -/
def cmpChar (a b : Char) : Ordering :=
  if a.toNat = b.toNat then .eq
  else if a.toNat < b.toNat then .lt
  else .gt

/-- Three-way lexicographic comparison of char lists by code point,
exactly CPython's string comparison. -/
def cmpCL : List Char → List Char → Ordering
  | [], [] => .eq
  | [], _ :: _ => .lt
  | _ :: _, [] => .gt
  | a :: as, b :: bs =>
    match cmpChar a b with
    | .eq => cmpCL as bs
    | o => o

def lexLt (a b : List Char) : Bool := decide (cmpCL a b = .lt)

def lexLe (a b : List Char) : Bool := decide (¬ cmpCL a b = .gt)

theorem char_toNat_inj {a b : Char} (h : a.toNat = b.toNat) : a = b :=
  Char.ext (UInt32.ext h)

theorem cmpChar_eq_iff {a b : Char} : cmpChar a b = .eq ↔ a = b := by
  unfold cmpChar
  by_cases hab : a.toNat = b.toNat
  · simp [hab, char_toNat_inj hab]
  · have hne : a ≠ b := fun h => hab (h ▸ rfl)
    by_cases hlt : a.toNat < b.toNat <;> simp [hab, hlt, hne]

theorem cmpChar_swap (a b : Char) : cmpChar b a = (cmpChar a b).swap := by
  unfold cmpChar
  by_cases hab : a.toNat = b.toNat
  · simp [hab, Ordering.swap]
  · have hba : ¬ b.toNat = a.toNat := fun h => hab h.symm
    rcases Nat.lt_or_ge a.toNat b.toNat with hlt | hge
    · have h2 : ¬ b.toNat < a.toNat := Nat.not_lt.mpr (Nat.le_of_lt hlt)
      simp [hab, hba, hlt, h2, Ordering.swap]
    · have hlt2 : b.toNat < a.toNat := Nat.lt_of_le_of_ne hge hba
      have h2 : ¬ a.toNat < b.toNat := Nat.not_lt.mpr (Nat.le_of_lt hlt2)
      simp [hab, hba, hlt2, h2, Ordering.swap]

theorem cmpChar_lt_trans {a b c : Char}
    (h1 : cmpChar a b = .lt) (h2 : cmpChar b c = .lt) : cmpChar a c = .lt := by
  unfold cmpChar at h1 h2 ⊢
  by_cases e1 : a.toNat = b.toNat
  · simp [e1] at h1
  by_cases e2 : b.toNat = c.toNat
  · simp [e2] at h2
  by_cases l1 : a.toNat < b.toNat
  · by_cases l2 : b.toNat < c.toNat
    · have h3 : a.toNat < c.toNat := Nat.lt_trans l1 l2
      simp [Nat.ne_of_lt h3, h3]
    · simp [e2, l2] at h2
  · simp [e1, l1] at h1

theorem cmpCL_eq_iff : ∀ {a b : List Char}, cmpCL a b = .eq ↔ a = b
  | [], [] => by simp [cmpCL]
  | [], _ :: _ => by simp [cmpCL]
  | _ :: _, [] => by simp [cmpCL]
  | a :: as, b :: bs => by
    show (match cmpChar a b with | .eq => cmpCL as bs | o => o) = .eq ↔ _
    rcases hc : cmpChar a b with _ | _ | _
    · have : a ≠ b := fun h => by
        rw [h, cmpChar_eq_iff.mpr rfl] at hc; cases hc
      simp [this]
    · rw [cmpChar_eq_iff] at hc
      rw [hc]
      simp only [List.cons.injEq, true_and]
      exact cmpCL_eq_iff
    · have : a ≠ b := fun h => by
        rw [h, cmpChar_eq_iff.mpr rfl] at hc; cases hc
      simp [this]

theorem cmpCL_swap : ∀ (a b : List Char), cmpCL b a = (cmpCL a b).swap
  | [], [] => rfl
  | [], _ :: _ => rfl
  | _ :: _, [] => rfl
  | a :: as, b :: bs => by
    show (match cmpChar b a with | .eq => cmpCL bs as | o => o)
        = (match cmpChar a b with | .eq => cmpCL as bs | o => o).swap
    rw [cmpChar_swap a b]
    rcases cmpChar a b with _ | _ | _
    · rfl
    · exact cmpCL_swap as bs
    · rfl

theorem cmpCL_lt_trans : ∀ {a b c : List Char},
    cmpCL a b = .lt → cmpCL b c = .lt → cmpCL a c = .lt
  | [], [], _, hab, _ => by simp [cmpCL] at hab
  | [], _ :: _, [], _, hbc => by simp [cmpCL] at hbc
  | [], _ :: _, _ :: _, _, _ => by simp [cmpCL]
  | _ :: _, [], _, hab, _ => by simp [cmpCL] at hab
  | _ :: _, _ :: _, [], _, hbc => by simp [cmpCL] at hbc
  | a :: as, b :: bs, c :: cs, hab, hbc => by
    replace hab : (match cmpChar a b with | .eq => cmpCL as bs | o => o) = .lt := hab
    replace hbc : (match cmpChar b c with | .eq => cmpCL bs cs | o => o) = .lt := hbc
    show (match cmpChar a c with | .eq => cmpCL as cs | o => o) = .lt
    rcases h1 : cmpChar a b with _ | _ | _ <;> rw [h1] at hab <;>
      rcases h2 : cmpChar b c with _ | _ | _ <;> rw [h2] at hbc
    · rw [cmpChar_lt_trans h1 h2]
    · rw [cmpChar_eq_iff] at h2
      rw [← h2, h1]
    · cases hbc
    · rw [cmpChar_eq_iff] at h1
      rw [h1, h2]
    · rw [cmpChar_eq_iff] at h1 h2
      rw [h1, h2, cmpChar_eq_iff.mpr rfl]
      exact cmpCL_lt_trans hab hbc
    · cases hbc
    · cases hab
    · cases hab
    · cases hab

theorem lexLe_total (a b : List Char) : lexLe a b = true ∨ lexLe b a = true := by
  simp only [lexLe, decide_eq_true_eq]
  by_cases h : cmpCL a b = .gt
  · right
    rw [cmpCL_swap b a] at h
    intro h2
    rw [h2] at h
    exact absurd h (by simp [Ordering.swap])
  · left; exact h

theorem lexLe_trans {a b c : List Char}
    (h1 : lexLe a b = true) (h2 : lexLe b c = true) : lexLe a c = true := by
  simp only [lexLe, decide_eq_true_eq] at h1 h2 ⊢
  rcases hab : cmpCL a b with _ | _ | _
  · rcases hbc : cmpCL b c with _ | _ | _
    · simp [cmpCL_lt_trans hab hbc]
    · rw [cmpCL_eq_iff] at hbc; rw [← hbc, hab]; simp
    · exact absurd hbc h2
  · rw [cmpCL_eq_iff] at hab; rw [hab]; exact h2
  · exact absurd hab h1

theorem lexLe_antisym {a b : List Char}
    (h1 : lexLe a b = true) (h2 : lexLe b a = true) : a = b := by
  simp only [lexLe, decide_eq_true_eq] at h1 h2
  rcases hab : cmpCL a b with _ | _ | _
  · rw [cmpCL_swap a b, hab] at h2
    exact absurd rfl h2
  · exact cmpCL_eq_iff.mp hab
  · exact absurd hab h1

theorem lexLt_irrefl (a : List Char) : lexLt a a = false := by
  simp only [lexLt, decide_eq_false_iff_not]
  rw [show cmpCL a a = .eq from cmpCL_eq_iff.mpr rfl]
  simp

theorem lexLt_asymm {a b : List Char}
    (h1 : lexLt a b = true) (h2 : lexLt b a = true) : False := by
  simp only [lexLt, decide_eq_true_eq] at h1 h2
  rw [cmpCL_swap a b, h1] at h2
  simp [Ordering.swap] at h2

theorem lexLt_connex {a b : List Char} (hne : a ≠ b) :
    lexLt a b = true ∨ lexLt b a = true := by
  simp only [lexLt, decide_eq_true_eq]
  rcases hab : cmpCL a b with _ | _ | _
  · left; rfl
  · exact absurd (cmpCL_eq_iff.mp hab) hne
  · right; rw [cmpCL_swap a b, hab]; rfl

theorem lexLt_trans {a b c : List Char}
    (h1 : lexLt a b = true) (h2 : lexLt b c = true) : lexLt a c = true := by
  simp only [lexLt, decide_eq_true_eq] at h1 h2 ⊢
  exact cmpCL_lt_trans h1 h2

/-! ### Generic helpers: association lookup, char-list splitting -/

/-- Association-list lookup (first binding wins), modelling Python dict /
pydash path lookup. -/
def alookup (k : String) : List (String × β) → Option β
  | [] => none
  | (k2, v) :: rest => if k = k2 then some v else alookup k rest

/-- Python str.split with a one-char separator: keeps empty parts, always
returns at least one part. -/
def splitOnChar (sep : Char) : List Char → List (List Char)
  | [] => [[]]
  | c :: cs =>
    if c = sep then [] :: splitOnChar sep cs
    else
      match splitOnChar sep cs with
      | [] => [[c]]
      | p :: ps => (c :: p) :: ps

def digitsVal (ds : List Char) : Int :=
  ds.foldl (fun a c => a * 10 + ((c.toNat : Int) - 48)) 0

/-- Python int() on chars, restricted to an optional sign followed by
decimal digits — the shapes dash-separated id parts take (surrounding
whitespace and underscore separators do not occur in task ids). -/
def py_int_of_chars (cs : List Char) : Except String Int :=
  match cs with
  | '-' :: rest =>
    if rest.isEmpty then .error "ValueError: invalid literal for int"
    else if rest.all (·.isDigit) then .ok (-(digitsVal rest))
    else .error "ValueError: invalid literal for int"
  | '+' :: rest =>
    if rest.isEmpty then .error "ValueError: invalid literal for int"
    else if rest.all (·.isDigit) then .ok (digitsVal rest)
    else .error "ValueError: invalid literal for int"
  | _ =>
    if cs.isEmpty then .error "ValueError: invalid literal for int"
    else if cs.all (·.isDigit) then .ok (digitsVal cs)
    else .error "ValueError: invalid literal for int"

/-! ### Data model -/

/-- One entry of the molecule settings table (the rule table).
quality_score maps the applicable task types to their numeric score; the
default values mirror prop.get(..., False) in the source. -/
structure Rule where
  tasks_key : String
  molecules_key : String
  quality_score : List (String × Int)
  track : Bool := false
  aggregate : Bool := false
  optional : Bool := false
deriving DecidableEq, Repr, Inhabited

/-- One task record, as consumed by the builder.

Modelled from the spec: the task-type classifier
(emmet.qchem.task_tagger.task_type, imported by the source but external
to it) derives the type from raw task metadata; the spec lists it as an
external collaborator, so the derived type is carried as a field.  The
nested payload with pydash dotted-path access is modelled as a map from
full dotted path to value. -/
structure TaskRec where
  task_id : TaskId
  task_type : String
  formula_pretty : String
  state : String
  last_updated : Int
  payload : List (String × PValue)
deriving DecidableEq, Repr, Inhabited

/-- One candidate property, the dict built in task_to_prop_list. -/
structure CandidateProp where
  value : PValue
  task_type : String
  task_id : TaskId
  quality_score : Int
  track : Bool
  aggregate : Bool
  last_updated : Int
  energy : Int
  molecules_key : String
deriving DecidableEq, Repr, Inhabited

/-- One provenance record (lines 166-168 of the source). -/
structure OriginRec where
  molecules_key : String
  task_type : String
  task_id : TaskId
  last_updated : Int
deriving DecidableEq, Repr, Inhabited

/-- The assembled molecule document: the fixed keys of the mol dict plus
the dynamic fields written by set_ (keyed by their full dotted path). -/
structure MolDoc where
  last_updated : Int
  created_at : Int
  task_ids : List TaskId
  mol_id : TaskId
  origins : List OriginRec
  task_types : List (TaskId × String)
  fields : List (String × PValue)
deriving DecidableEq, Repr, Inhabited

/-! ### Property extraction (task_to_prop_list, lines 213-239) -/

/-- get(task, "output.energy", 0.0): the task's energy, defaulting to 0
when the path is absent (non-numeric payloads there do not occur). -/
def energy_of (t : TaskRec) : Int :=
  match alookup "output.energy" t.payload with
  | some (.int n) => n
  | _ => 0

/-- task_to_prop_list: for every settings rule whose quality_score lists
the task's type and whose tasks_key is present in the task, build one
candidate property.  A missing non-optional path is logged in the source
but produces no candidate either way, identical to the optional case. -/
def task_to_prop_list (settings : List Rule) (t : TaskRec) : List CandidateProp :=
  settings.filterMap fun r =>
    match alookup t.task_type r.quality_score with
    | none => none
    | some score =>
      match alookup r.tasks_key t.payload with
      | none => none
      | some v => some {
          value := v
          task_type := t.task_type
          task_id := t.task_id
          quality_score := score
          track := r.track
          aggregate := r.aggregate
          last_updated := t.last_updated
          energy := energy_of t
          molecules_key := r.molecules_key }

/-- Line 140: all candidate properties of a task group, flattened in
task order. -/
def all_props (settings : List Rule) (group : List TaskRec) : List CandidateProp :=
  (group.map (task_to_prop_list settings)).flatten

/-! ### Identity selection (ID_to_int and lines 142-144) -/

/-- ID_to_int: a string id splits on dashes into (first part, int(last
part)); a numeric id is its own key; int() failure propagates
(ValueError). -/
def ID_to_int : TaskId → Except String IDKey
  | .str s =>
    let parts := splitOnChar '-' s.data
    match py_int_of_chars (parts.getLastD []) with
    | .ok n => .ok (.inl (parts.headD [], n))
    | .error e => .error e
  | .int n => .ok (.inr n)

/-- Python ordering of ID_to_int keys: tuples lexicographically (string
by code points, then number), bare numbers numerically.  The source only
ever compares keys of one shape — a mixed key list raises TypeError
before any comparison result is used (see mol_id) — so the cross-shape
values are never observable. -/
def idKeyLe : IDKey → IDKey → Bool
  | .inl (s1, n1), .inl (s2, n2) =>
    if s1 = s2 then decide (n1 ≤ n2) else lexLt s1 s2
  | .inr a, .inr b => decide (a ≤ b)
  | .inl _, .inr _ => true
  | .inr _, .inl _ => false

def idPairLe (a b : IDKey × CandidateProp) : Prop := idKeyLe a.1 b.1 = true

instance : DecidableRel idPairLe := fun a b =>
  inferInstanceAs (Decidable (_ = true))

/-- CPython evaluates sorted()'s key on every element in list order
before sorting, so the first malformed id raises. -/
def map_keys : List CandidateProp → Except String (List (IDKey × CandidateProp))
  | [] => .ok []
  | p :: ps =>
    match ID_to_int p.task_id with
    | .error e => .error e
    | .ok k =>
      match map_keys ps with
      | .error e => .error e
      | .ok rest => .ok ((k, p) :: rest)

/-- Lines 142-144: possible_mol_ids = task ids of all_props sorted by
ID_to_int of task_id; mol_id = the first.  Mixed key shapes (tuple vs
number) make CPython's sort raise TypeError; an empty candidate list
makes the [0] index raise IndexError. -/
def mol_id (props : List CandidateProp) : Except String TaskId :=
  match map_keys props with
  | .error e => .error e
  | .ok keyed =>
    if (keyed.any fun kp => kp.1.isLeft) && (keyed.any fun kp => kp.1.isRight) then
      .error "TypeError: unorderable key shapes"
    else
      match List.insertionSort idPairLe keyed with
      | [] => .error "IndexError: list index out of range"
      | kp :: _ => .ok kp.2.task_id

/-! ### Per-field conflict resolution (lines 146-163) -/

/-- The ordering of line 154: sorted(props, key=(quality_score, -energy),
reverse=True).  a sorts no later than b exactly when a has the higher
quality score, or an equal score and no higher energy; CPython's stable
descending sort is a stable insertion sort along this relation. -/
def bestLe (a b : CandidateProp) : Prop :=
  b.quality_score < a.quality_score ∨
    (a.quality_score = b.quality_score ∧ a.energy ≤ b.energy)

instance : DecidableRel bestLe := fun a b => by unfold bestLe; infer_instance

instance : IsTotal CandidateProp bestLe where
  total a b := by
    unfold bestLe
    rcases lt_trichotomy a.quality_score b.quality_score with h | h | h
    · right; left; exact h
    · rcases le_total a.energy b.energy with he | he
      · left; right; exact ⟨h, he⟩
      · right; right; exact ⟨h.symm, he⟩
    · left; left; exact h

instance : IsTrans CandidateProp bestLe where
  trans a b c hab hbc := by
    unfold bestLe at hab hbc ⊢
    rcases hab with h1 | ⟨h1, h1e⟩ <;> rcases hbc with h2 | ⟨h2, h2e⟩
    · left; exact h2.trans h1
    · left; exact h2 ▸ h1
    · left; exact h1 ▸ h2
    · right; exact ⟨h1.trans h2, h1e.trans h2e⟩

/-- The body of the per-field loop (lines 152-163): sort the field's
candidates best-first; if the best has the aggregate flag, emit it with
its value replaced by the ordered list of all values and track forced
off; otherwise emit the best candidate unchanged. -/
def resolve_field (g : List CandidateProp) : List CandidateProp :=
  match List.insertionSort bestLe g with
  | [] => []
  | best :: rest =>
    if best.aggregate then
      [{ best with value := PValue.list ((best :: rest).map (·.value)), track := false }]
    else [best]

/-- itertools.groupby: split a list into maximal runs of consecutive
equal keys, in order. -/
def groupRuns (key : α → κ) [DecidableEq κ] : List α → List (κ × List α)
  | [] => []
  | x :: xs =>
    match groupRuns key xs with
    | [] => [(key x, [x])]
    | (k, g) :: rest =>
      if key x = k then (k, x :: g) :: rest
      else (key x, [x]) :: (k, g) :: rest

/-- Ascending sort relation of line 147: molecules_key compared as a
CPython string (code points). -/
def mkeyLe (a b : CandidateProp) : Prop :=
  lexLe a.molecules_key.data b.molecules_key.data = true

instance : DecidableRel mkeyLe := fun a b =>
  inferInstanceAs (Decidable (_ = true))

instance : IsTotal CandidateProp mkeyLe where
  total a b := lexLe_total _ _

instance : IsTrans CandidateProp mkeyLe where
  trans _ _ _ hab hbc := lexLe_trans hab hbc

/-- Lines 146-163: sort all candidates by molecules_key, group the runs,
resolve each run. -/
def best_props (props : List CandidateProp) : List CandidateProp :=
  ((groupRuns (fun p => p.molecules_key) (List.insertionSort mkeyLe props)).map
    fun r => resolve_field r.2).flatten

/-! ### Document assembly (make_mol, lines 134-192) -/

/-- Python max() over a list; raises on an empty sequence. -/
def py_max : List Int → Except String Int
  | [] => .error "ValueError: max arg is an empty sequence"
  | x :: xs => .ok (xs.foldl max x)

/-- Python min() over a list; raises on an empty sequence. -/
def py_min : List Int → Except String Int
  | [] => .error "ValueError: min arg is an empty sequence"
  | x :: xs => .ok (xs.foldl min x)

/-- pydash set_ as the builder uses it: store a value at its full dotted
path, replacing an existing binding (the settings table keys distinct
fields by distinct paths). -/
def set_ (fields : List (String × PValue)) (k : String) (v : PValue) :
    List (String × PValue) :=
  if fields.any fun kv => decide (kv.1 = k) then
    fields.map fun kv => if kv.1 = k then (k, v) else kv
  else fields ++ [(k, v)]

/-- First dotted-path component: the top-level dict key that set_
creates for a path. -/
def top_key (path : String) : List Char :=
  (splitOnChar '.' path.data).headD []

/-- Python's `"structure" in mol`: does any dynamic field sit under the
given top-level key?  (The fixed mol keys are task bookkeeping, never
the structural field.) -/
def has_top_key (fields : List (String × PValue)) (k : String) : Bool :=
  fields.any fun kv => decide (top_key kv.1 = k.data)

/-- make_mol: flatten the group to candidates, pick the molecule id,
resolve each field, collect provenance for tracked winners, record task
ids and types, take max/min last_updated over all candidates, write each
winning value at its path — and then line 190 reads the local name
`structure`, which is never defined in make_mol or at module level, so a
document that contains the structural field raises NameError before it
is returned. -/
def make_mol (settings : List Rule) (group : List TaskRec) : Except String MolDoc :=
  let props := all_props settings group
  match mol_id props with
  | .error e => .error e
  | .ok mid =>
    let best := best_props props
    let origins := (best.filter (·.track)).map fun p =>
      OriginRec.mk p.molecules_key p.task_type p.task_id p.last_updated
    let t_ids := (group.map (·.task_id)).dedup
    let t_types := props.map fun p => (p.task_id, p.task_type)
    match py_max (props.map (·.last_updated)), py_min (props.map (·.last_updated)) with
    | .ok lu, .ok created =>
      let fields := best.foldl (fun acc p => set_ acc p.molecules_key p.value) []
      if has_top_key fields "structure" then
        .error "NameError: name structure is not defined"
      else
        .ok { last_updated := lu, created_at := created, task_ids := t_ids,
              mol_id := mid, origins := origins, task_types := t_types,
              fields := fields }
    | .error e, _ => .error e
    | _, .error e => .error e

/-! ### Batch processing, validation, sink (lines 90-132, 241-245) -/

/-- process_item's per-group loop (lines 108-109): make one molecule per
instance group, in order; an exception from make_mol propagates and
aborts the whole batch.

Modelled from the spec: group_structures, which partitions the filtered
tasks into instance groups, is an unfinished stub in the source (it
raises), and the spec designates the structural grouper as an external
collaborator with a partition contract — so process_item is modelled
over the grouper's output. -/
def process_item (settings : List Rule) : List (List TaskRec) → Except String (List MolDoc)
  | [] => .ok []
  | g :: gs =>
    match make_mol settings g with
    | .error e => .error e
    | .ok m =>
      match process_item settings gs with
      | .error e => .error e
      | .ok ms => .ok (m :: ms)

/-- valid (lines 241-245): a document is valid iff it contains the
structural field. -/
def valid (doc : MolDoc) : Bool :=
  has_top_key doc.fields "structure"

/-- update_targets (lines 115-132): flatten the processed batches and
keep only valid documents; the result is the upsert batch (the _bt pass
stamp does not affect which documents reach the sink). -/
def update_targets (items : List (List MolDoc)) : List MolDoc :=
  items.flatten.filter valid

/-! ### Change-set detection (get_items, lines 62-88) -/

/-- The q+state filter of line 63-64: caller query and state =
"successful". -/
def successful_q (q : TaskRec → Bool) (t : TaskRec) : Bool :=
  q t && decide (t.state = "successful")

/-- Lines 62-81 of get_items: the set of grouping keys (formula_pretty)
whose tasks are (re)processed this pass.  Stores are modelled
extensionally: the task store is a list of records with distinct("task_id")
and distinct("formula_pretty") as image sets; the molecule store
contributes the set of task ids already present in documents
(distinct("task_ids")) and its lu_filter as a predicate on tasks. -/
def forms_to_update (q : TaskRec → Bool) (tasks : List TaskRec)
    (processed_tasks : Finset TaskId) (lu_pred : TaskRec → Bool) : Finset String :=
  let all_tasks : Finset TaskId :=
    ((tasks.filter (successful_q q)).map (·.task_id)).toFinset
  let to_process_tasks := all_tasks \ processed_tasks
  let to_process_forms : Finset String :=
    ((tasks.filter fun t => decide (t.task_id ∈ to_process_tasks)).map
      (·.formula_pretty)).toFinset
  let updated_forms : Finset String :=
    ((tasks.filter fun t => successful_q q t && lu_pred t).map
      (·.formula_pretty)).toFinset
  updated_forms ∪ to_process_forms

/-! ### Lemmas: strings, stable sorting, run grouping -/

theorem string_data_inj {s t : String} (h : s.data = t.data) : s = t :=
  congrArg String.mk h

theorem mkeyLe_of_eq {a b : CandidateProp}
    (h : a.molecules_key = b.molecules_key) : mkeyLe a b := by
  unfold mkeyLe lexLe
  rw [h, cmpCL_eq_iff.mpr rfl]
  simp

theorem mkey_eq_of_le_le {a b : CandidateProp}
    (h1 : mkeyLe a b) (h2 : mkeyLe b a) :
    a.molecules_key = b.molecules_key :=
  string_data_inj (lexLe_antisym h1 h2)


/-- Stability of the molecules_key sort: inserting an element keeps the
subsequence of each key intact. -/
theorem filter_orderedInsert_mkey (f : String) (x : CandidateProp) :
    ∀ l : List CandidateProp,
      (List.orderedInsert mkeyLe x l).filter (fun p => decide (p.molecules_key = f))
        = if x.molecules_key = f
          then x :: l.filter (fun p => decide (p.molecules_key = f))
          else l.filter (fun p => decide (p.molecules_key = f))
  | [] => by
    by_cases hx : x.molecules_key = f <;>
      simp [List.orderedInsert, hx]
  | b :: l => by
    show (if mkeyLe x b then x :: b :: l else b :: List.orderedInsert mkeyLe x l).filter _ = _
    by_cases hr : mkeyLe x b
    · rw [if_pos hr]
      by_cases hx : x.molecules_key = f <;>
        simp [List.filter_cons, hx]
    · rw [if_neg hr]
      have hbx : ¬ (b.molecules_key = x.molecules_key) := fun h =>
        hr (mkeyLe_of_eq h.symm)
      have IH := filter_orderedInsert_mkey f x l
      by_cases hx : x.molecules_key = f
      · have hb : ¬ (b.molecules_key = f) := fun h => hbx (h.trans hx.symm)
        rw [if_pos hx] at IH
        simp [List.filter_cons, hb, hx, IH]
      · rw [if_neg hx] at IH
        by_cases hb : b.molecules_key = f <;>
          simp [List.filter_cons, hb, hx, IH]

/-- The molecules_key sort is stable: the subsequence of candidates of
one field is unchanged by the sort. -/
theorem filter_insertionSort_mkey (f : String) :
    ∀ l : List CandidateProp,
      (List.insertionSort mkeyLe l).filter (fun p => decide (p.molecules_key = f))
        = l.filter (fun p => decide (p.molecules_key = f))
  | [] => rfl
  | x :: l => by
    show (List.orderedInsert mkeyLe x (List.insertionSort mkeyLe l)).filter _ = _
    rw [filter_orderedInsert_mkey, filter_insertionSort_mkey f l]
    by_cases hx : x.molecules_key = f <;>
      simp [List.filter_cons, hx]

/-! groupRuns structure lemmas (generic in the key function). -/

theorem groupRuns_eq_nil_iff {key : α → κ} [DecidableEq κ] :
    ∀ {l : List α}, groupRuns key l = [] ↔ l = []
  | [] => by simp [groupRuns]
  | x :: xs => by
    constructor
    · intro h
      rw [groupRuns] at h
      rcases E : groupRuns key xs with _ | ⟨⟨k, g⟩, rest⟩
      · rw [E] at h; cases h
      · rw [E] at h
        by_cases hx : key x = k <;> simp [hx] at h
    · intro h; cases h

theorem groupRuns_flatten (key : α → κ) [DecidableEq κ] :
    ∀ l : List α, ((groupRuns key l).map Prod.snd).flatten = l
  | [] => rfl
  | x :: xs => by
    have IH := groupRuns_flatten key xs
    rcases E : groupRuns key xs with _ | ⟨⟨k, g⟩, rest⟩
    · have hxs : xs = [] := groupRuns_eq_nil_iff.mp E
      simp [hxs, groupRuns]
    · rw [E] at IH
      by_cases hx : key x = k
      · simp only [groupRuns, E, if_pos hx]
        simp only [List.map_cons, List.flatten_cons] at IH ⊢
        rw [List.cons_append, IH]
      · simp only [groupRuns, E, if_neg hx]
        simp only [List.map_cons, List.flatten_cons] at IH ⊢
        rw [IH]
        rfl

theorem groupRuns_key_eq {key : α → κ} [DecidableEq κ] :
    ∀ {l : List α} {k : κ} {g : List α}, (k, g) ∈ groupRuns key l →
      ∀ x ∈ g, key x = k
  | [], _, _, h => by cases h
  | x :: xs, k, g, h => by
    rw [groupRuns] at h
    rcases E : groupRuns key xs with _ | ⟨⟨k0, g0⟩, rest⟩
    · rw [E] at h
      have h1 : (k, g) = (key x, [x]) := List.mem_singleton.mp h
      have hk : key x = k := congrArg Prod.fst h1.symm
      have hg : [x] = g := congrArg Prod.snd h1.symm
      intro y hy
      rw [← hg] at hy
      rw [List.mem_singleton.mp hy, hk]
    · rw [E] at h
      replace h : (k, g) ∈
          (if key x = k0 then (k0, x :: g0) :: rest
           else (key x, [x]) :: (k0, g0) :: rest) := h
      by_cases hx : key x = k0
      · rw [if_pos hx] at h
        rcases List.mem_cons.mp h with h1 | h1
        · have hk : k0 = k := congrArg Prod.fst h1.symm
          have hg : x :: g0 = g := congrArg Prod.snd h1.symm
          intro y hy
          rw [← hg] at hy
          rcases List.mem_cons.mp hy with h2 | h2
          · rw [h2, hx, hk]
          · exact (groupRuns_key_eq (E ▸ List.mem_cons_self _ _) y h2).trans hk
        · exact groupRuns_key_eq (E ▸ List.mem_cons_of_mem _ h1)
      · rw [if_neg hx] at h
        rcases List.mem_cons.mp h with h1 | h1
        · have hk : key x = k := congrArg Prod.fst h1.symm
          have hg : [x] = g := congrArg Prod.snd h1.symm
          intro y hy
          rw [← hg] at hy
          rw [List.mem_singleton.mp hy, hk]
        · exact groupRuns_key_eq (E ▸ h1)

theorem groupRuns_run_ne_nil {key : α → κ} [DecidableEq κ] :
    ∀ {l : List α} {k : κ} {g : List α}, (k, g) ∈ groupRuns key l → g ≠ []
  | [], _, _, h => by cases h
  | x :: xs, k, g, h => by
    rw [groupRuns] at h
    rcases E : groupRuns key xs with _ | ⟨⟨k0, g0⟩, rest⟩
    · rw [E] at h
      have hg : [x] = g := congrArg Prod.snd (List.mem_singleton.mp h).symm
      rw [← hg]; simp
    · rw [E] at h
      replace h : (k, g) ∈
          (if key x = k0 then (k0, x :: g0) :: rest
           else (key x, [x]) :: (k0, g0) :: rest) := h
      by_cases hx : key x = k0
      · rw [if_pos hx] at h
        rcases List.mem_cons.mp h with h1 | h1
        · have hg : x :: g0 = g := congrArg Prod.snd h1.symm
          rw [← hg]; simp
        · exact groupRuns_run_ne_nil (E ▸ List.mem_cons_of_mem _ h1)
      · rw [if_neg hx] at h
        rcases List.mem_cons.mp h with h1 | h1
        · have hg : [x] = g := congrArg Prod.snd h1.symm
          rw [← hg]; simp
        · exact groupRuns_run_ne_nil (E ▸ h1)

theorem groupRuns_run_subset {key : α → κ} [DecidableEq κ] {l : List α}
    {k : κ} {g : List α} (h : (k, g) ∈ groupRuns key l) : ∀ x ∈ g, x ∈ l := by
  intro x hx
  rw [← groupRuns_flatten key l]
  exact List.mem_flatten.mpr ⟨g, List.mem_map_of_mem Prod.snd h, hx⟩

/-- The head run of a non-empty list starts with the head of the list. -/
theorem groupRuns_head_decomp (key : α → κ) [DecidableEq κ] (l : List α)
    {k : κ} {g : List α} {rest : List (κ × List α)}
    (E : groupRuns key l = (k, g) :: rest) :
    ∃ c t, g = c :: t ∧ l = c :: (t ++ ((rest.map Prod.snd).flatten)) := by
  have hne : g ≠ [] := groupRuns_run_ne_nil (E ▸ List.mem_cons_self _ _)
  rcases g with _ | ⟨c, t⟩
  · exact absurd rfl hne
  · refine ⟨c, t, rfl, ?_⟩
    have h2 := groupRuns_flatten key l
    rw [E] at h2
    simpa using h2.symm

/-- In a molecules_key-sorted list, an element of the tail that shares
the head's key forces the second element to share it too. -/
theorem mkey_squeeze {x c : CandidateProp} {t : List CandidateProp}
    (h : List.Pairwise mkeyLe (x :: c :: t)) {y : CandidateProp}
    (hy : y ∈ c :: t) (hk : y.molecules_key = x.molecules_key) :
    c.molecules_key = x.molecules_key := by
  rcases List.mem_cons.mp hy with h1 | h1
  · rw [← h1, hk]
  · have hxc : mkeyLe x c := (List.pairwise_cons.mp h).1 c (List.mem_cons_self _ _)
    have hcy : mkeyLe c y :=
      (List.pairwise_cons.mp (List.pairwise_cons.mp h).2).1 y h1
    have hcx : mkeyLe c x := by
      unfold mkeyLe at hcy ⊢
      rw [← hk]; exact hcy
    exact mkey_eq_of_le_le hcx hxc

/-- On a molecules_key-sorted list, distinct runs carry distinct keys. -/
theorem groupRuns_keys_pairwise_ne :
    ∀ {l : List CandidateProp}, List.Pairwise mkeyLe l →
      (groupRuns (fun p => p.molecules_key) l).Pairwise (fun a b => a.1 ≠ b.1)
  | [], _ => by simp [groupRuns]
  | x :: xs, h => by
    have hxs := (List.pairwise_cons.mp h).2
    have IH := groupRuns_keys_pairwise_ne hxs
    rcases E : groupRuns (fun p => p.molecules_key) xs with _ | ⟨⟨k0, g0⟩, rest⟩
    · simp [groupRuns, E]
    · rw [E] at IH
      by_cases hx : x.molecules_key = k0
      · simp only [groupRuns, E, if_pos hx]
        rcases List.pairwise_cons.mp IH with ⟨hhead, hrest⟩
        exact List.pairwise_cons.mpr ⟨fun b hb => hhead b hb, hrest⟩
      · simp only [groupRuns, E, if_neg hx]
        refine List.pairwise_cons.mpr ⟨?_, IH⟩
        intro b hb
        obtain ⟨bk, bg⟩ := b
        rcases List.mem_cons.mp hb with h1 | h1
        · intro hkk
          have hbk : bk = k0 := congrArg Prod.fst h1
          exact hx (hkk.trans hbk)
        · intro hkk
          have hbmem : (bk, bg) ∈ groupRuns (fun p => p.molecules_key) xs :=
            E ▸ List.mem_cons_of_mem _ h1
          obtain ⟨y, hy⟩ := List.exists_mem_of_ne_nil _ (groupRuns_run_ne_nil hbmem)
          have hyk : y.molecules_key = bk := groupRuns_key_eq hbmem y hy
          have hyxs : y ∈ xs := groupRuns_run_subset hbmem y hy
          obtain ⟨c, t, hg0, hxs_eq⟩ :=
            groupRuns_head_decomp (fun p => p.molecules_key) xs E
          have hy2 : y.molecules_key = x.molecules_key := hyk.trans hkk.symm
          have hsq : c.molecules_key = x.molecules_key :=
            mkey_squeeze (hxs_eq ▸ h) (hxs_eq ▸ hyxs) hy2
          have hck0 : c.molecules_key = k0 :=
            groupRuns_key_eq (E ▸ List.mem_cons_self _ _) c
              (hg0 ▸ List.mem_cons_self _ _)
          exact hx (hsq.symm.trans hck0)

/-- On a molecules_key-sorted list, each run is exactly the sublist of
its key. -/
theorem groupRuns_filter_of_sorted :
    ∀ {l : List CandidateProp}, List.Pairwise mkeyLe l →
      ∀ {k : String} {g : List CandidateProp},
        (k, g) ∈ groupRuns (fun p => p.molecules_key) l →
        g = l.filter (fun p => decide (p.molecules_key = k))
  | [], _, _, _, h => by cases h
  | x :: xs, hp, k, g, h => by
    have hxs := (List.pairwise_cons.mp hp).2
    rw [groupRuns] at h
    rcases E : groupRuns (fun p => p.molecules_key) xs with _ | ⟨⟨k0, g0⟩, rest⟩
    · have hxs0 : xs = [] := groupRuns_eq_nil_iff.mp E
      rw [E] at h
      have h1 : (k, g) = (x.molecules_key, [x]) := List.mem_singleton.mp h
      have hk : x.molecules_key = k := congrArg Prod.fst h1.symm
      have hg : [x] = g := congrArg Prod.snd h1.symm
      subst hxs0
      rw [← hg, List.filter_cons]
      simp [hk]
    · rw [E] at h
      replace h : (k, g) ∈
          (if x.molecules_key = k0 then (k0, x :: g0) :: rest
           else (x.molecules_key, [x]) :: (k0, g0) :: rest) := h
      by_cases hx : x.molecules_key = k0
      · rw [if_pos hx] at h
        rcases List.mem_cons.mp h with h1 | h1
        · have hk : k0 = k := congrArg Prod.fst h1.symm
          have hg : x :: g0 = g := congrArg Prod.snd h1.symm
          have IH := groupRuns_filter_of_sorted hxs
            (E ▸ List.mem_cons_self ((k0, g0)) rest)
          rw [← hg, ← hk, List.filter_cons]
          simp only [hx, decide_True, if_true]
          rw [IH]
        · have hmem : (k, g) ∈ groupRuns (fun p => p.molecules_key) xs :=
            E ▸ List.mem_cons_of_mem _ h1
          have IH := groupRuns_filter_of_sorted hxs hmem
          have hnk : ¬ (x.molecules_key = k) := by
            intro hc
            have G9 := groupRuns_keys_pairwise_ne hxs
            rw [E] at G9
            have hne := (List.pairwise_cons.mp G9).1 (k, g) h1
            exact hne (hx.symm.trans hc)
          rw [List.filter_cons]
          simp [hnk, IH]
      · rw [if_neg hx] at h
        rcases List.mem_cons.mp h with h1 | h1
        · have hk : x.molecules_key = k := congrArg Prod.fst h1.symm
          have hg : [x] = g := congrArg Prod.snd h1.symm
          have hnil : xs.filter (fun p => decide (p.molecules_key = k)) = [] := by
            rw [List.filter_eq_nil_iff]
            intro y hyxs hyk
            obtain ⟨c, t, hg0, hxs_eq⟩ :=
              groupRuns_head_decomp (fun p => p.molecules_key) xs E
            have hy2 : y.molecules_key = x.molecules_key :=
              (of_decide_eq_true hyk).trans hk.symm
            have hsq : c.molecules_key = x.molecules_key :=
              mkey_squeeze (hxs_eq ▸ hp) (hxs_eq ▸ hyxs) hy2
            have hck0 : c.molecules_key = k0 :=
              groupRuns_key_eq (E ▸ List.mem_cons_self _ _) c
                (hg0 ▸ List.mem_cons_self _ _)
            exact hx (hsq.symm.trans hck0)
          rw [← hg, List.filter_cons]
          simp [hk, hnil]
        · have hmem : (k, g) ∈ groupRuns (fun p => p.molecules_key) xs := E ▸ h1
          have IH := groupRuns_filter_of_sorted hxs hmem
          have hnk : ¬ (x.molecules_key = k) := by
            intro hc
            obtain ⟨y, hy⟩ := List.exists_mem_of_ne_nil _ (groupRuns_run_ne_nil hmem)
            have hyk : y.molecules_key = k := groupRuns_key_eq hmem y hy
            have hyxs : y ∈ xs := groupRuns_run_subset hmem y hy
            obtain ⟨c, t, hg0, hxs_eq⟩ :=
              groupRuns_head_decomp (fun p => p.molecules_key) xs E
            have hy2 : y.molecules_key = x.molecules_key := hyk.trans hc.symm
            have hsq : c.molecules_key = x.molecules_key :=
              mkey_squeeze (hxs_eq ▸ hp) (hxs_eq ▸ hyxs) hy2
            have hck0 : c.molecules_key = k0 :=
              groupRuns_key_eq (E ▸ List.mem_cons_self _ _) c
                (hg0 ▸ List.mem_cons_self _ _)
            exact hx (hsq.symm.trans hck0)
          rw [List.filter_cons]
          simp [hnk, IH]

/-- Every property emitted by resolve_field carries the molecules_key of
some input candidate. -/
theorem resolve_field_mem_key {g : List CandidateProp} {e : CandidateProp}
    (he : e ∈ resolve_field g) : ∃ c ∈ g, e.molecules_key = c.molecules_key := by
  unfold resolve_field at he
  rcases E : List.insertionSort bestLe g with _ | ⟨b, rest⟩
  · rw [E] at he; cases he
  · rw [E] at he
    replace he : e ∈ (if b.aggregate = true then
        [{ b with value := PValue.list ((b :: rest).map (·.value)), track := false }]
      else [b]) := he
    have hb : b ∈ g :=
      (List.perm_insertionSort bestLe g).subset (E ▸ List.mem_cons_self _ _)
    by_cases hagg : b.aggregate
    · rw [if_pos hagg] at he
      exact ⟨b, hb, by rw [List.mem_singleton.mp he]⟩
    · rw [if_neg hagg] at he
      exact ⟨b, hb, by rw [List.mem_singleton.mp he]⟩

/-- Filtering the concatenated resolutions of key-distinct runs keeps
exactly the resolution of the run of that key. -/
theorem flatten_filter_runs (f : String) :
    ∀ (R : List (String × List CandidateProp)),
      R.Pairwise (fun a b => a.1 ≠ b.1) →
      (∀ r ∈ R, ∀ e ∈ resolve_field r.2, e.molecules_key = r.1) →
      ((R.map fun r => resolve_field r.2).flatten.filter
          (fun p => decide (p.molecules_key = f)))
        = match R.find? (fun r => decide (r.1 = f)) with
          | some r => resolve_field r.2
          | none => []
  | [], _, _ => rfl
  | r :: R, hpw, hk => by
    rcases List.pairwise_cons.mp hpw with ⟨hhead, hrest⟩
    simp only [List.map_cons, List.flatten_cons, List.filter_append]
    have IH := flatten_filter_runs f R hrest
      (fun r2 hr2 => hk r2 (List.mem_cons_of_mem _ hr2))
    by_cases hf : r.1 = f
    · have h1 : (resolve_field r.2).filter (fun p => decide (p.molecules_key = f))
          = resolve_field r.2 :=
        List.filter_eq_self.mpr fun e he => by
          simp [hk r (List.mem_cons_self _ _) e he, hf]
      have hnone : R.find? (fun r2 => decide (r2.1 = f)) = none :=
        List.find?_eq_none.mpr fun r2 hr2 => by
          simp
          intro hc
          exact hhead r2 hr2 (hf.trans hc.symm)
      rw [h1, IH, hnone]
      have hfind : (r :: R).find? (fun r2 => decide (r2.1 = f)) = some r := by
        rw [List.find?_cons_of_pos]
        simp [hf]
      rw [hfind]
      simp
    · have h1 : (resolve_field r.2).filter (fun p => decide (p.molecules_key = f))
          = [] :=
        List.filter_eq_nil_iff.mpr fun e he => by
          simp [hk r (List.mem_cons_self _ _) e he, hf]
      have hfind : (r :: R).find? (fun r2 => decide (r2.1 = f))
          = R.find? (fun r2 => decide (r2.1 = f)) := by
        rw [List.find?_cons_of_neg]
        simp [hf]
      rw [h1, List.nil_append, IH, hfind]

/-- Per-field view of lines 146-163: the emitted best properties of one
target field are exactly the resolution of that field's candidate
sublist (sorted grouping plus stability). -/
theorem best_props_filter (props : List CandidateProp) (f : String) :
    (best_props props).filter (fun p => decide (p.molecules_key = f))
      = resolve_field (props.filter (fun p => decide (p.molecules_key = f))) := by
  unfold best_props
  have hsorted : List.Pairwise mkeyLe (List.insertionSort mkeyLe props) :=
    List.sorted_insertionSort mkeyLe props
  have G9 := groupRuns_keys_pairwise_ne hsorted
  have hkeys : ∀ r ∈ groupRuns (fun p => p.molecules_key)
      (List.insertionSort mkeyLe props),
      ∀ e ∈ resolve_field r.2, e.molecules_key = r.1 := by
    intro r hr e he
    obtain ⟨c, hc, hkey⟩ := resolve_field_mem_key he
    obtain ⟨rk, rg⟩ := r
    exact hkey.trans (groupRuns_key_eq hr c hc)
  rw [flatten_filter_runs f _ G9 hkeys]
  rcases hf : (groupRuns (fun p => p.molecules_key)
      (List.insertionSort mkeyLe props)).find? (fun r => decide (r.1 = f))
    with _ | r
  · have hnone := List.find?_eq_none.mp hf
    have hnil : props.filter (fun p => decide (p.molecules_key = f)) = [] := by
      rw [← filter_insertionSort_mkey]
      rw [List.filter_eq_nil_iff]
      intro y hy hyk
      have hyfl : y ∈ ((groupRuns (fun p => p.molecules_key)
          (List.insertionSort mkeyLe props)).map Prod.snd).flatten := by
        rw [groupRuns_flatten]; exact hy
      obtain ⟨g, hg, hyg⟩ := List.mem_flatten.mp hyfl
      obtain ⟨r2, hr2, hsnd⟩ := List.mem_map.mp hg
      obtain ⟨rk, rg⟩ := r2
      have hymk : y.molecules_key = rk := groupRuns_key_eq hr2 y
        (by have h3 : rg = g := hsnd; rw [h3]; exact hyg)
      have hk2 : rk = f := hymk ▸ (of_decide_eq_true hyk)
      have := hnone (rk, rg) hr2
      simp [hk2] at this
    rw [hnil, hf]
    rfl
  · rw [hf]
    have hrmem := List.mem_of_find?_eq_some hf
    have hrk : r.1 = f := by
      have h4 := List.find?_some hf
      simpa using h4
    obtain ⟨rk, rg⟩ := r
    have hG5 := groupRuns_filter_of_sorted hsorted hrmem
    show resolve_field rg = _
    rw [hG5]
    simp only at hrk
    rw [hrk, filter_insertionSort_mkey]

/-! ### Sorted-head and extraction lemmas -/

theorem bestLe_refl (a : CandidateProp) : bestLe a a := Or.inr ⟨rfl, le_refl _⟩

/-- The head of a stable sort is a member and relates to every element. -/
theorem sort_head_min {α : Type} {r : α → α → Prop} [DecidableRel r]
    [IsTotal α r] [IsTrans α r] {l : List α} (hne : l ≠ []) :
    ∃ w t, List.insertionSort r l = w :: t ∧ w ∈ l ∧ ∀ p ∈ l, r w p := by
  rcases E : List.insertionSort r l with _ | ⟨w, t⟩
  · exfalso
    have hperm := List.perm_insertionSort r l
    rw [E] at hperm
    exact hne hperm.symm.eq_nil
  · have hperm := List.perm_insertionSort r l
    rw [E] at hperm
    have hsor := List.sorted_insertionSort r l
    rw [E] at hsor
    refine ⟨w, t, rfl, hperm.subset (List.mem_cons_self _ _), ?_⟩
    intro p hp
    rcases List.mem_cons.mp (hperm.symm.subset hp) with h1 | h1
    · rw [h1]
      exact (IsTotal.total w w).elim id id
    · exact (List.pairwise_cons.mp hsor).1 p h1

/-- The candidate sublist of one target field. -/
def field_cands (settings : List Rule) (group : List TaskRec) (f : String) :
    List CandidateProp :=
  (all_props settings group).filter fun p => decide (p.molecules_key = f)

/-- The first candidate of a field under the quality-then-energy sort:
the winner chosen by resolve_field. -/
def field_winner (settings : List Rule) (group : List TaskRec) (f : String) :
    CandidateProp :=
  (List.insertionSort bestLe (field_cands settings group f)).headD default

theorem field_winner_spec (settings : List Rule) (group : List TaskRec) (f : String)
    (hne : field_cands settings group f ≠ []) :
    ∃ t, List.insertionSort bestLe (field_cands settings group f)
        = field_winner settings group f :: t
      ∧ field_winner settings group f ∈ field_cands settings group f
      ∧ ∀ p ∈ field_cands settings group f, bestLe (field_winner settings group f) p := by
  obtain ⟨w, t, E, hmem, hall⟩ := sort_head_min (r := bestLe) hne
  have hw : field_winner settings group f = w := by
    unfold field_winner
    rw [E]
    rfl
  exact ⟨t, by rw [hw, E], by rw [hw]; exact hmem, by rw [hw]; exact hall⟩

theorem foldl_max_spec (xs : List Int) :
    ∀ a : Int, (a ≤ xs.foldl max a ∧ ∀ x ∈ xs, x ≤ xs.foldl max a)
      ∧ (xs.foldl max a = a ∨ xs.foldl max a ∈ xs) := by
  induction xs with
  | nil => intro a; simp
  | cons x xs IH =>
    intro a
    obtain ⟨⟨hle, hall⟩, hmem⟩ := IH (max a x)
    refine ⟨⟨le_trans (le_max_left a x) hle, ?_⟩, ?_⟩
    · intro y hy
      rcases List.mem_cons.mp hy with h1 | h1
      · rw [h1]
        exact le_trans (le_max_right a x) hle
      · exact hall y h1
    · rcases hmem with h1 | h1
      · rcases max_choice a x with h2 | h2
        · left; rw [List.foldl_cons, h1, h2]
        · right; rw [List.foldl_cons, h1, h2]; exact List.mem_cons_self _ _
      · right; exact List.mem_cons_of_mem _ h1

theorem foldl_min_spec (xs : List Int) :
    ∀ a : Int, (xs.foldl min a ≤ a ∧ ∀ x ∈ xs, xs.foldl min a ≤ x)
      ∧ (xs.foldl min a = a ∨ xs.foldl min a ∈ xs) := by
  induction xs with
  | nil => intro a; simp
  | cons x xs IH =>
    intro a
    obtain ⟨⟨hle, hall⟩, hmem⟩ := IH (min a x)
    refine ⟨⟨le_trans hle (min_le_left a x), ?_⟩, ?_⟩
    · intro y hy
      rcases List.mem_cons.mp hy with h1 | h1
      · rw [h1]
        exact le_trans hle (min_le_right a x)
      · exact hall y h1
    · rcases hmem with h1 | h1
      · rcases min_choice a x with h2 | h2
        · left; rw [List.foldl_cons, h1, h2]
        · right; rw [List.foldl_cons, h1, h2]; exact List.mem_cons_self _ _
      · right; exact List.mem_cons_of_mem _ h1

theorem py_max_spec {l : List Int} {M : Int} (h : py_max l = .ok M) :
    M ∈ l ∧ ∀ x ∈ l, x ≤ M := by
  rcases l with _ | ⟨a, xs⟩
  · cases h
  · have hM : M = xs.foldl max a := by
      have := (Except.ok.inj h).symm
      exact this
    obtain ⟨⟨hle, hall⟩, hmem⟩ := foldl_max_spec xs a
    subst hM
    refine ⟨?_, ?_⟩
    · rcases hmem with h1 | h1
      · rw [h1]; exact List.mem_cons_self _ _
      · exact List.mem_cons_of_mem _ h1
    · intro x hx
      rcases List.mem_cons.mp hx with h1 | h1
      · rw [h1]; exact hle
      · exact hall x h1

theorem py_min_spec {l : List Int} {m : Int} (h : py_min l = .ok m) :
    m ∈ l ∧ ∀ x ∈ l, m ≤ x := by
  rcases l with _ | ⟨a, xs⟩
  · cases h
  · have hm : m = xs.foldl min a := (Except.ok.inj h).symm
    obtain ⟨⟨hle, hall⟩, hmem⟩ := foldl_min_spec xs a
    subst hm
    refine ⟨?_, ?_⟩
    · rcases hmem with h1 | h1
      · rw [h1]; exact List.mem_cons_self _ _
      · exact List.mem_cons_of_mem _ h1
    · intro x hx
      rcases List.mem_cons.mp hx with h1 | h1
      · rw [h1]; exact hle
      · exact hall x h1

theorem py_max_ok_of_ne_nil {l : List Int} (h : l ≠ []) : ∃ M, py_max l = .ok M := by
  rcases l with _ | ⟨a, xs⟩
  · exact absurd rfl h
  · exact ⟨xs.foldl max a, rfl⟩

theorem py_min_ok_of_ne_nil {l : List Int} (h : l ≠ []) : ∃ m, py_min l = .ok m := by
  rcases l with _ | ⟨a, xs⟩
  · exact absurd rfl h
  · exact ⟨xs.foldl min a, rfl⟩

/-- Every candidate a task yields carries the task's last_updated. -/
theorem task_to_prop_list_lu {settings : List Rule} {t : TaskRec}
    {p : CandidateProp} (h : p ∈ task_to_prop_list settings t) :
    p.last_updated = t.last_updated := by
  unfold task_to_prop_list at h
  obtain ⟨r, _, hr⟩ := List.mem_filterMap.mp h
  rcases h1 : alookup t.task_type r.quality_score with _ | score
  · rw [h1] at hr; cases hr
  · rw [h1] at hr
    rcases h2 : alookup r.tasks_key t.payload with _ | v
    · rw [h2] at hr; cases hr
    · rw [h2] at hr
      have := Option.some.inj hr
      rw [← this]

theorem all_props_mem {settings : List Rule} {group : List TaskRec}
    {p : CandidateProp} (h : p ∈ all_props settings group) :
    ∃ t ∈ group, p ∈ task_to_prop_list settings t := by
  unfold all_props at h
  obtain ⟨l, hl, hp⟩ := List.mem_flatten.mp h
  obtain ⟨t, ht, hmap⟩ := List.mem_map.mp hl
  exact ⟨t, ht, hmap ▸ hp⟩

/-- Inversion of a successful make_mol: every step succeeded, and the
document's components are the computed ones. -/
theorem make_mol_ok {settings : List Rule} {group : List TaskRec} {doc : MolDoc}
    (h : make_mol settings group = .ok doc) :
    mol_id (all_props settings group) = .ok doc.mol_id
    ∧ py_max ((all_props settings group).map (·.last_updated)) = .ok doc.last_updated
    ∧ py_min ((all_props settings group).map (·.last_updated)) = .ok doc.created_at
    ∧ doc.origins = ((best_props (all_props settings group)).filter (·.track)).map
        (fun p => OriginRec.mk p.molecules_key p.task_type p.task_id p.last_updated)
    ∧ doc.fields = (best_props (all_props settings group)).foldl
        (fun acc p => set_ acc p.molecules_key p.value) []
    ∧ has_top_key doc.fields "structure" = false
    ∧ doc.task_ids = (group.map (·.task_id)).dedup := by
  simp only [make_mol] at h
  rcases E1 : mol_id (all_props settings group) with e | mid
  · rw [E1] at h; dsimp only [] at h; cases h
  · rw [E1] at h
    rcases E2 : py_max ((all_props settings group).map (·.last_updated)) with e | lu
    · rw [E2] at h
      rcases E3 : py_min ((all_props settings group).map (·.last_updated)) with e2 | c
      · rw [E3] at h; dsimp only [] at h; cases h
      · rw [E3] at h; dsimp only [] at h; cases h
    · rw [E2] at h
      rcases E3 : py_min ((all_props settings group).map (·.last_updated)) with e | created
      · rw [E3] at h; dsimp only [] at h; cases h
      · rw [E3] at h
        dsimp only [] at h
        by_cases hs : has_top_key ((best_props (all_props settings group)).foldl
            (fun acc p => set_ acc p.molecules_key p.value) []) "structure" = true
        · rw [if_pos hs] at h; cases h
        · rw [if_neg hs] at h
          injection h with h2
          subst h2
          refine ⟨?_, ?_, ?_, ?_, ?_, ?_, ?_⟩ <;> dsimp only [] <;>
            first
            | exact E1
            | exact E2
            | exact E3
            | rfl
            | simpa using hs

/-- resolve_field once the sorted candidates are known. -/
theorem resolve_field_eq {cands : List CandidateProp} {w : CandidateProp}
    {t : List CandidateProp} (E : List.insertionSort bestLe cands = w :: t) :
    resolve_field cands
      = if w.aggregate = true then
          [{ w with value := PValue.list ((w :: t).map (·.value)), track := false }]
        else [w] := by
  unfold resolve_field
  rw [E]

/-! ### Shared concrete example data (spec scenario of section 8) -/

def exRuleER : Rule :=
  { tasks_key := "out.er", molecules_key := "energy_result",
    quality_score := [("opt", 10), ("sp", 5)], track := true }

def exSettings : List Rule := [exRuleER]

def exTask1 : TaskRec :=
  { task_id := .str "eg-1", task_type := "opt", formula_pretty := "H2O",
    state := "successful", last_updated := 1,
    payload := [("out.er", .int 11), ("output.energy", .int (-5))] }

def exTask2 : TaskRec :=
  { task_id := .str "eg-2", task_type := "opt", formula_pretty := "H2O",
    state := "successful", last_updated := 2,
    payload := [("out.er", .int 22), ("output.energy", .int (-7))] }

def exTask3 : TaskRec :=
  { task_id := .str "eg-3", task_type := "sp", formula_pretty := "H2O",
    state := "successful", last_updated := 3,
    payload := [("out.er", .int 33), ("output.energy", .int (-100))] }

def exGroup : List TaskRec := [exTask1, exTask2, exTask3]

def exDoc : MolDoc :=
  match make_mol exSettings exGroup with
  | .ok d => d
  | .error _ => default

/-- The C1 resolution property of one molecule-instance group and one
target field. -/
def c1_prop (settings : List Rule) (group : List TaskRec) (f : String) : Prop :=
  (best_props (all_props settings group)).filter
      (fun p => decide (p.molecules_key = f))
    = [field_winner settings group f]
  ∧ field_winner settings group f ∈ field_cands settings group f
  ∧ (∀ p ∈ field_cands settings group f,
      p.quality_score ≤ (field_winner settings group f).quality_score)
  ∧ (∀ p ∈ field_cands settings group f,
      p.quality_score = (field_winner settings group f).quality_score →
      (field_winner settings group f).energy ≤ p.energy)
  ∧ (∀ p q, p ∈ field_cands settings group f → q ∈ field_cands settings group f →
      p.quality_score = q.quality_score → q.energy < p.energy →
      field_winner settings group f ≠ p)
  ∧ (∀ p q, p ∈ field_cands settings group f → q ∈ field_cands settings group f →
      p.quality_score < q.quality_score → field_winner settings group f ≠ p)

/-- C1: for every molecule-instance group and every target field whose
candidates are not aggregated, the resolver emits exactly the winning
candidate itself (hence with its original track flag): the candidate of
maximal quality_score, ties broken by minimal energy.  A candidate beaten
on equal score by a strictly lower energy, or beaten by a higher score
regardless of energy, never wins. -/
theorem c1_conflict_resolution (settings : List Rule) (group : List TaskRec)
    (f : String) (hne : field_cands settings group f ≠ [])
    (hnoagg : ∀ p ∈ field_cands settings group f, p.aggregate = false) :
    c1_prop settings group f := by
  obtain ⟨t, E, hmem, hall⟩ := field_winner_spec settings group f hne
  have hwin : (best_props (all_props settings group)).filter
      (fun p => decide (p.molecules_key = f)) = [field_winner settings group f] := by
    rw [best_props_filter]
    show resolve_field (field_cands settings group f) = _
    rw [resolve_field_eq E, if_neg]
    rw [hnoagg _ hmem]
    simp
  refine ⟨hwin, hmem, ?_, ?_, ?_, ?_⟩
  · intro p hp
    rcases hall p hp with h1 | ⟨h1, _⟩
    · exact le_of_lt h1
    · exact le_of_eq h1.symm
  · intro p hp heq
    rcases hall p hp with h1 | ⟨_, h2⟩
    · omega
    · exact h2
  · intro p q hp hq heq hlt hwp
    rcases hall q hq with h1 | ⟨h1, h2⟩
    · rw [hwp] at h1; omega
    · rw [hwp] at h2; omega
  · intro p q hp hq hlt hwp
    rcases hall q hq with h1 | ⟨h1, _⟩
    · rw [hwp] at h1; omega
    · rw [hwp] at h1; omega

/-- Witness for C1 at the section-8 scenario: three candidates of
qualities 10, 10, 5 and energies -5, -7, -100; the winner is the
eg-2 candidate (tied top quality, lower energy). -/
theorem c1_witness :
    (field_cands exSettings exGroup "energy_result" ≠ []
      ∧ ∀ p ∈ field_cands exSettings exGroup "energy_result", p.aggregate = false)
    ∧ c1_prop exSettings exGroup "energy_result"
    ∧ (field_winner exSettings exGroup "energy_result").task_id = .str "eg-2" :=
  ⟨⟨by decide, by decide⟩,
    c1_conflict_resolution exSettings exGroup "energy_result" (by decide) (by decide),
    by decide⟩

/-- The C3 aggregation property, for a field whose winning candidate has
the aggregate flag. -/
def c3_prop (settings : List Rule) (group : List TaskRec) (f : String) : Prop :=
  (best_props (all_props settings group)).filter
      (fun p => decide (p.molecules_key = f))
    = [{ field_winner settings group f with
          value := PValue.list
            ((List.insertionSort bestLe (field_cands settings group f)).map (·.value)),
          track := false }]
  ∧ (List.insertionSort bestLe (field_cands settings group f)).Perm
      (field_cands settings group f)
  ∧ (List.insertionSort bestLe (field_cands settings group f)).length
      = (field_cands settings group f).length
  ∧ List.Sorted bestLe (List.insertionSort bestLe (field_cands settings group f))

/-- C3 (amended): when the winning (best-sorted-first) candidate of a
field has aggregate = true, the emitted property's value is the list of
every candidate's value — one entry per candidate, none dropped, in
descending quality then ascending energy order — and its track flag is
forced to false. -/
theorem c3_aggregation (settings : List Rule) (group : List TaskRec) (f : String)
    (hne : field_cands settings group f ≠ [])
    (hagg : (field_winner settings group f).aggregate = true) :
    c3_prop settings group f := by
  obtain ⟨t, E, hmem, hall⟩ := field_winner_spec settings group f hne
  refine ⟨?_, List.perm_insertionSort _ _,
    (List.perm_insertionSort bestLe _).length_eq, List.sorted_insertionSort _ _⟩
  rw [best_props_filter]
  show resolve_field (field_cands settings group f) = _
  rw [resolve_field_eq E, if_pos hagg, ← E]

/-- An aggregate-flagged candidate beaten by a non-aggregate one: the
code resolves the field from the winner's flag alone. -/
def exAggLow : CandidateProp :=
  { value := .int 2, task_type := "sp", task_id := .str "eg-2", quality_score := 1,
    track := false, aggregate := true, last_updated := 6, energy := 0,
    molecules_key := "f" }

def exNoAggHigh : CandidateProp :=
  { value := .int 1, task_type := "opt", task_id := .str "eg-1", quality_score := 2,
    track := true, aggregate := false, last_updated := 5, energy := 0,
    molecules_key := "f" }

/-- C3 counterexample: a field with a candidate marked aggregate = true
resolves to the single winning candidate's plain value with track still
true, because the winner does not carry the flag — so the claim's "any
candidate has aggregate = true" reading fails on the code. -/
theorem c3_counterexample :
    exAggLow.aggregate = true
    ∧ exAggLow ∈ [exNoAggHigh, exAggLow]
    ∧ best_props [exNoAggHigh, exAggLow] = [exNoAggHigh]
    ∧ exNoAggHigh.track = true
    ∧ exNoAggHigh.value = PValue.int 1 :=
  ⟨rfl, by decide, by decide, rfl, rfl⟩

/-- A rule marked aggregate, for the C3 witness. -/
def exRuleVib : Rule :=
  { tasks_key := "out.vib", molecules_key := "vibs",
    quality_score := [("opt", 10), ("sp", 5)], aggregate := true }

def exSettingsAgg : List Rule := [exRuleVib]

def exTaskA : TaskRec :=
  { task_id := .str "eg-1", task_type := "opt", formula_pretty := "H2O",
    state := "successful", last_updated := 1,
    payload := [("out.vib", .int 7), ("output.energy", .int (-5))] }

def exTaskB : TaskRec :=
  { task_id := .str "eg-2", task_type := "sp", formula_pretty := "H2O",
    state := "successful", last_updated := 2,
    payload := [("out.vib", .int 8), ("output.energy", .int (-7))] }

def exGroupAgg : List TaskRec := [exTaskA, exTaskB]

theorem c3_witness :
    (field_cands exSettingsAgg exGroupAgg "vibs" ≠ []
      ∧ (field_winner exSettingsAgg exGroupAgg "vibs").aggregate = true)
    ∧ c3_prop exSettingsAgg exGroupAgg "vibs" :=
  ⟨⟨by decide, by decide⟩,
    c3_aggregation exSettingsAgg exGroupAgg "vibs" (by decide) (by decide)⟩

/-- C5: a produced document's updated stamp is the max and its created
stamp the min of last_updated over all candidates (winners and
non-winners alike); created_at is at most updated_at, and both lie
within the group's task last_updated bounds, inclusive. -/
theorem c5_timestamps (settings : List Rule) (group : List TaskRec) (doc : MolDoc)
    (h : make_mol settings group = .ok doc) :
    py_max ((all_props settings group).map (·.last_updated)) = .ok doc.last_updated
    ∧ py_min ((all_props settings group).map (·.last_updated)) = .ok doc.created_at
    ∧ doc.created_at ≤ doc.last_updated
    ∧ ∃ mT MT, py_min (group.map (·.last_updated)) = .ok mT
        ∧ py_max (group.map (·.last_updated)) = .ok MT
        ∧ mT ≤ doc.created_at ∧ doc.last_updated ≤ MT := by
  obtain ⟨_, hmax, hmin, _, _, _, _⟩ := make_mol_ok h
  obtain ⟨hMmem, hMub⟩ := py_max_spec hmax
  obtain ⟨hmmem, hmlb⟩ := py_min_spec hmin
  refine ⟨hmax, hmin, hmlb _ hMmem, ?_⟩
  have hlus : ∀ x ∈ (all_props settings group).map (·.last_updated),
      x ∈ group.map (·.last_updated) := by
    intro x hx
    obtain ⟨p, hp, hpx⟩ := List.mem_map.mp hx
    obtain ⟨tk, htk, hptk⟩ := all_props_mem hp
    refine List.mem_map.mpr ⟨tk, htk, ?_⟩
    rw [← hpx, task_to_prop_list_lu hptk]
  have hgne : group.map (·.last_updated) ≠ [] := by
    intro hnil
    have h2 := hlus _ hMmem
    rw [hnil] at h2
    cases h2
  obtain ⟨mT, hmT⟩ := py_min_ok_of_ne_nil hgne
  obtain ⟨MT, hMT⟩ := py_max_ok_of_ne_nil hgne
  exact ⟨mT, MT, hmT, hMT, (py_min_spec hmT).2 _ (hlus _ hmmem),
    (py_max_spec hMT).2 _ (hlus _ hMmem)⟩

theorem c5_witness :
    make_mol exSettings exGroup = .ok exDoc
    ∧ (py_max ((all_props exSettings exGroup).map (·.last_updated)) = .ok exDoc.last_updated
      ∧ py_min ((all_props exSettings exGroup).map (·.last_updated)) = .ok exDoc.created_at
      ∧ exDoc.created_at ≤ exDoc.last_updated
      ∧ ∃ mT MT, py_min (exGroup.map (·.last_updated)) = .ok mT
          ∧ py_max (exGroup.map (·.last_updated)) = .ok MT
          ∧ mT ≤ exDoc.created_at ∧ exDoc.last_updated ≤ MT) :=
  ⟨rfl, c5_timestamps exSettings exGroup exDoc rfl⟩

/-- C6: for every resolved field, exactly one OriginRecord is emitted
when the winning candidate is non-aggregated and tracked — carrying the
winner's target field, task type, task id and last_updated — and none is
emitted for aggregated or untracked fields. -/
theorem c6_provenance (settings : List Rule) (group : List TaskRec) (doc : MolDoc)
    (f : String) (h : make_mol settings group = .ok doc)
    (hne : field_cands settings group f ≠ []) :
    ((field_winner settings group f).aggregate = false →
      (field_winner settings group f).track = true →
      doc.origins.filter (fun o => decide (o.molecules_key = f))
        = [OriginRec.mk f (field_winner settings group f).task_type
            (field_winner settings group f).task_id
            (field_winner settings group f).last_updated])
    ∧ ((field_winner settings group f).aggregate = true ∨
        (field_winner settings group f).track = false →
      doc.origins.filter (fun o => decide (o.molecules_key = f)) = []) := by
  obtain ⟨_, _, _, horig, _, _, _⟩ := make_mol_ok h
  obtain ⟨t, E, hmem, _⟩ := field_winner_spec settings group f hne
  have hkey : (field_winner settings group f).molecules_key = f :=
    of_decide_eq_true (List.mem_filter.mp hmem).2
  have hfilt : doc.origins.filter (fun o => decide (o.molecules_key = f))
      = ((resolve_field (field_cands settings group f)).filter (·.track)).map
          (fun p => OriginRec.mk p.molecules_key p.task_type p.task_id p.last_updated) := by
    rw [horig, List.filter_map]
    have hcomm : (((best_props (all_props settings group)).filter (·.track)).filter
        ((fun o : OriginRec => decide (o.molecules_key = f)) ∘
          (fun p : CandidateProp =>
            OriginRec.mk p.molecules_key p.task_type p.task_id p.last_updated)))
        = ((best_props (all_props settings group)).filter
            (fun p => decide (p.molecules_key = f))).filter (·.track) := by
      rw [List.filter_filter, List.filter_filter]
      congr 1
      funext a
      exact Bool.and_comm _ _
    rw [hcomm, best_props_filter]
    rfl
  constructor
  · intro hnagg htr
    rw [hfilt, resolve_field_eq E, if_neg (by rw [hnagg]; simp)]
    simp [List.filter_cons, htr, hkey]
  · intro hcase
    rw [hfilt, resolve_field_eq E]
    by_cases hagg : (field_winner settings group f).aggregate = true
    · rw [if_pos hagg]
      simp
    · rw [if_neg hagg]
      have htr : (field_winner settings group f).track = false := by
        rcases hcase with h1 | h1
        · exact absurd h1 hagg
        · exact h1
      simp [List.filter_cons, htr]

theorem c6_witness :
    make_mol exSettings exGroup = .ok exDoc
    ∧ field_cands exSettings exGroup "energy_result" ≠ []
    ∧ (((field_winner exSettings exGroup "energy_result").aggregate = false →
        (field_winner exSettings exGroup "energy_result").track = true →
        exDoc.origins.filter (fun o => decide (o.molecules_key = "energy_result"))
          = [OriginRec.mk "energy_result"
              (field_winner exSettings exGroup "energy_result").task_type
              (field_winner exSettings exGroup "energy_result").task_id
              (field_winner exSettings exGroup "energy_result").last_updated])
      ∧ ((field_winner exSettings exGroup "energy_result").aggregate = true ∨
          (field_winner exSettings exGroup "energy_result").track = false →
        exDoc.origins.filter (fun o => decide (o.molecules_key = "energy_result")) = [])) :=
  ⟨rfl, by decide,
    c6_provenance exSettings exGroup exDoc "energy_result" rfl (by decide)⟩

/-- C7: the validator accepts a document exactly when it has the
structural field; update_targets drops every invalid document before the
upsert batch and keeps every valid one; a group none of whose candidates
target the structural field assembles to a rejected document that is not
upserted. -/
theorem c7_validator (settings : List Rule) (group : List TaskRec) (doc : MolDoc)
    (h : make_mol settings group = .ok doc)
    (hns : ∀ p ∈ all_props settings group,
      ¬ top_key p.molecules_key = "structure".data) :
    valid doc = false
    ∧ update_targets [[doc]] = []
    ∧ (∀ d : MolDoc, valid d = has_top_key d.fields "structure")
    ∧ (∀ (items : List (List MolDoc)) (d : MolDoc),
        d ∈ update_targets items → valid d = true)
    ∧ (∀ (items : List (List MolDoc)) (d : MolDoc),
        d ∈ items.flatten → valid d = true → d ∈ update_targets items) := by
  obtain ⟨_, _, _, _, _, hsf, _⟩ := make_mol_ok h
  have hv : valid doc = false := hsf
  refine ⟨hv, ?_, fun d => rfl, ?_, ?_⟩
  · show ([[doc]].flatten.filter valid) = []
    simp [hv]
  · intro items d hd
    exact (List.mem_filter.mp hd).2
  · intro items d hd hvd
    exact List.mem_filter.mpr ⟨hd, hvd⟩

theorem c7_witness :
    make_mol exSettings exGroup = .ok exDoc
    ∧ (∀ p ∈ all_props exSettings exGroup,
        ¬ top_key p.molecules_key = "structure".data)
    ∧ (valid exDoc = false
      ∧ update_targets [[exDoc]] = []
      ∧ (∀ d : MolDoc, valid d = has_top_key d.fields "structure")
      ∧ (∀ (items : List (List MolDoc)) (d : MolDoc),
          d ∈ update_targets items → valid d = true)
      ∧ (∀ (items : List (List MolDoc)) (d : MolDoc),
          d ∈ items.flatten → valid d = true → d ∈ update_targets items)) :=
  ⟨rfl, by decide, c7_validator exSettings exGroup exDoc rfl (by decide)⟩

/-- C10: a non-empty task group in which no task yields any candidate
makes make_mol fail — indexing possible_mol_ids[0] raises IndexError
before the min/max calls can raise — instead of returning a document. -/
theorem c10_empty_candidates (settings : List Rule) (group : List TaskRec)
    (hne : group ≠ []) (hall : ∀ t ∈ group, task_to_prop_list settings t = []) :
    make_mol settings group = .error "IndexError: list index out of range" := by
  have hprops : all_props settings group = [] := by
    unfold all_props
    rw [List.flatten_eq_nil_iff]
    intro l hl
    obtain ⟨t, ht, hmap⟩ := List.mem_map.mp hl
    rw [← hmap]
    exact hall t ht
  simp only [make_mol]
  rw [hprops]
  rfl

def exTaskNoProps : TaskRec :=
  { task_id := .str "eg-9", task_type := "opt", formula_pretty := "H2O",
    state := "successful", last_updated := 4, payload := [] }

theorem c10_witness :
    ([exTaskNoProps] ≠ ([] : List TaskRec)
      ∧ ∀ t ∈ [exTaskNoProps], task_to_prop_list exSettings t = [])
    ∧ make_mol exSettings [exTaskNoProps]
        = .error "IndexError: list index out of range" :=
  ⟨⟨by decide, by decide⟩,
    c10_empty_candidates exSettings [exTaskNoProps] (by decide) (by decide)⟩

/-- C9 (amended): a make_mol failure in any instance group — in
particular a malformed task id during identity resolution — aborts
process_item for the whole batch: no group of that batch produces a
document in this pass (batches are processed independently, so other
batches are unaffected). -/
theorem c9_batch_abort (settings : List Rule) :
    ∀ (groups : List (List TaskRec)) (g : List TaskRec), g ∈ groups →
      (∃ e, make_mol settings g = .error e) →
      ∃ e2, process_item settings groups = .error e2
  | [], g, hg, _ => absurd hg (List.not_mem_nil g)
  | g0 :: gs, g, hg, ⟨e, he⟩ => by
    rcases List.mem_cons.mp hg with h1 | h1
    · subst h1
      exact ⟨e, by simp only [process_item, he]⟩
    · rcases E0 : make_mol settings g0 with e0 | m0
      · exact ⟨e0, by simp only [process_item, E0]⟩
      · obtain ⟨e2, hE⟩ := c9_batch_abort settings gs g h1 ⟨e, he⟩
        exact ⟨e2, by simp only [process_item, E0, hE]⟩

/-- A task whose id parses in neither accepted shape. -/
def exTaskBad : TaskRec :=
  { task_id := .str "abc", task_type := "opt", formula_pretty := "H2O",
    state := "successful", last_updated := 7,
    payload := [("out.er", .int 44), ("output.energy", .int 0)] }

/-- C9 counterexample: a batch of two instance groups, the first with a
malformed task id.  process_item raises for the whole batch and produces
no document at all, although the second group alone produces its
document — so the failure is not confined to the offending group. -/
theorem c9_counterexample :
    process_item exSettings [[exTaskBad], exGroup]
        = .error "ValueError: invalid literal for int"
    ∧ make_mol exSettings exGroup = .ok exDoc
    ∧ process_item exSettings [exGroup] = .ok [exDoc] :=
  ⟨rfl, rfl, rfl⟩

theorem c9_witness :
    ([exTaskBad] ∈ [[exTaskBad], exGroup]
      ∧ make_mol exSettings [exTaskBad]
          = .error "ValueError: invalid literal for int")
    ∧ ∃ e2, process_item exSettings [[exTaskBad], exGroup] = .error e2 :=
  ⟨⟨by decide, rfl⟩,
    c9_batch_abort exSettings [[exTaskBad], exGroup] [exTaskBad] (by decide)
      ⟨"ValueError: invalid literal for int", rfl⟩⟩

/-- A rule that populates the structural field. -/
def exRuleStruct : Rule :=
  { tasks_key := "output.initial_molecule", molecules_key := "structure",
    quality_score := [("opt", 10)], track := true }

def exSettingsStruct : List Rule := [exRuleStruct]

def exTaskStruct : TaskRec :=
  { task_id := .str "eg-1", task_type := "opt", formula_pretty := "H2O",
    state := "successful", last_updated := 1,
    payload := [("output.initial_molecule", .str "H2O-geom"),
                ("output.energy", .int (-5))] }

/-- C4: as soon as the assembled document contains the structural field,
line 190 evaluates the name `structure`, which is defined neither in
make_mol nor at module level, so the assembly raises NameError instead
of enriching the document with metadata derived from the resolved
structure.  The metadata builder (structure_metadata, lines 264-281)
is unreachable from make_mol. -/
theorem c4_structure_namerror :
    make_mol exSettingsStruct [exTaskStruct]
      = .error "NameError: name structure is not defined" := rfl

/-- C8: with unique task ids (the store enforces a unique index), the
change set equals new work — grouping keys of successful tasks whose id
is not yet represented in the molecule store — united with updated work
— grouping keys of successful tasks passing the lu_filter — and, being a
set, carries each key exactly once. -/
theorem c8_change_set (q : TaskRec → Bool) (lu_pred : TaskRec → Bool)
    (tasks : List TaskRec) (processed : Finset TaskId)
    (hinj : ∀ t1 ∈ tasks, ∀ t2 ∈ tasks, t1.task_id = t2.task_id → t1 = t2) :
    forms_to_update q tasks processed lu_pred
      = ((tasks.filter fun t => successful_q q t && decide (t.task_id ∉ processed)).map
          (·.formula_pretty)).toFinset
        ∪ ((tasks.filter fun t => successful_q q t && lu_pred t).map
          (·.formula_pretty)).toFinset
    ∧ (forms_to_update q tasks processed lu_pred).val.Nodup := by
  refine ⟨?_, (forms_to_update q tasks processed lu_pred).nodup⟩
  unfold forms_to_update
  ext m
  simp only [Finset.mem_union, List.mem_toFinset, List.mem_map, List.mem_filter,
    Bool.and_eq_true, decide_eq_true_eq, Finset.mem_sdiff]
  constructor
  · rintro (⟨t, ⟨ht, hcond⟩, hform⟩ | ⟨t, ⟨ht, hcond⟩, hform⟩)
    · exact Or.inr ⟨t, ⟨ht, hcond⟩, hform⟩
    · left
      obtain ⟨hall, hnp⟩ := hcond
      obtain ⟨t2, ⟨ht2, hq2⟩, hid⟩ := hall
      have ht2t : t2 = t := hinj t2 ht2 t ht hid
      subst ht2t
      exact ⟨t2, ⟨ht2, hq2, hnp⟩, hform⟩
  · rintro (⟨t, ⟨ht, hcond⟩, hform⟩ | ⟨t, ⟨ht, hcond⟩, hform⟩)
    · right
      obtain ⟨hq, hnp⟩ := hcond
      exact ⟨t, ⟨ht, ⟨t, ⟨ht, hq⟩, rfl⟩, hnp⟩, hform⟩
    · exact Or.inl ⟨t, ⟨ht, hcond⟩, hform⟩

def exCs1 : TaskRec :=
  { task_id := .int 1, task_type := "opt", formula_pretty := "H2O",
    state := "successful", last_updated := 1, payload := [] }

def exCs2 : TaskRec :=
  { task_id := .int 2, task_type := "opt", formula_pretty := "CO2",
    state := "successful", last_updated := 1, payload := [] }

def exCs3 : TaskRec :=
  { task_id := .int 3, task_type := "opt", formula_pretty := "NH3",
    state := "successful", last_updated := 1, payload := [] }

def exCs4 : TaskRec :=
  { task_id := .int 4, task_type := "opt", formula_pretty := "H2O",
    state := "successful", last_updated := 2, payload := [] }

def exCsTasks : List TaskRec := [exCs1, exCs2, exCs3, exCs4]

def exProcessed : Finset TaskId := {.int 1, .int 2, .int 3}

/-- Witness for C8 at the section-8 scenario: ids 1-3 already
represented, the new task 4 shares task 1's grouping key, and the change
set selects that key exactly once. -/
theorem c8_witness :
    (∀ t1 ∈ exCsTasks, ∀ t2 ∈ exCsTasks, t1.task_id = t2.task_id → t1 = t2)
    ∧ forms_to_update (fun _ => true) exCsTasks exProcessed (fun _ => false)
        = {"H2O"}
    ∧ (forms_to_update (fun _ => true) exCsTasks exProcessed
        (fun _ => false)).val.Nodup :=
  ⟨by decide,
    ((c8_change_set (fun _ => true) (fun _ => false) exCsTasks exProcessed
        (by decide)).1).trans (by decide),
    (c8_change_set (fun _ => true) (fun _ => false) exCsTasks exProcessed
        (by decide)).2⟩

/-! ### C2: identity selection -/

instance : Inhabited IDKey := ⟨.inr 0⟩

/-- The structured key of a candidate's task id (default only where
ID_to_int raises). -/
def prop_id_key (p : CandidateProp) : IDKey :=
  match ID_to_int p.task_id with
  | .ok k => k
  | .error _ => default

theorem map_keys_ok : ∀ {props : List CandidateProp},
    (∀ p ∈ props, ID_to_int p.task_id = .ok (prop_id_key p)) →
    map_keys props = .ok (props.map fun p => (prop_id_key p, p))
  | [], _ => rfl
  | p :: ps, hok => by
    have hp := hok p (List.mem_cons_self _ _)
    have hps := map_keys_ok (fun x hx => hok x (List.mem_cons_of_mem _ hx))
    simp [map_keys, hp, hps]

theorem idKeyLe_total (a b : IDKey) : idKeyLe a b = true ∨ idKeyLe b a = true := by
  rcases a with ⟨s1, n1⟩ | n1 <;> rcases b with ⟨s2, n2⟩ | n2
  · simp only [idKeyLe]
    by_cases hs : s1 = s2
    · subst hs
      rw [if_pos rfl, if_pos rfl]
      rcases le_total n1 n2 with h | h
      · left; simp [h]
      · right; simp [h]
    · have hs2 : ¬ s2 = s1 := fun h => hs h.symm
      rw [if_neg hs, if_neg hs2]
      exact lexLt_connex hs
  · left; rfl
  · right; rfl
  · simp only [idKeyLe]
    rcases le_total n1 n2 with h | h
    · left; simp [h]
    · right; simp [h]

theorem idKeyLe_antisym {a b : IDKey} (h1 : idKeyLe a b = true)
    (h2 : idKeyLe b a = true) : a = b := by
  rcases a with ⟨s1, n1⟩ | n1 <;> rcases b with ⟨s2, n2⟩ | n2
  · simp only [idKeyLe] at h1 h2
    by_cases hs : s1 = s2
    · subst hs
      rw [if_pos rfl] at h1 h2
      simp only [decide_eq_true_eq] at h1 h2
      rw [le_antisymm h1 h2]
    · have hs2 : ¬ s2 = s1 := fun h => hs h.symm
      rw [if_neg hs] at h1
      rw [if_neg hs2] at h2
      exact (lexLt_asymm h1 h2).elim
  · simp [idKeyLe] at h2
  · simp [idKeyLe] at h1
  · simp only [idKeyLe, decide_eq_true_eq] at h1 h2
    rw [le_antisymm h1 h2]

theorem idKeyLe_trans : ∀ {a b c : IDKey}, idKeyLe a b = true →
    idKeyLe b c = true → idKeyLe a c = true
  | .inl (s1, n1), .inl (s2, n2), .inl (s3, n3), h1, h2 => by
    simp only [idKeyLe] at h1 h2 ⊢
    by_cases h12 : s1 = s2 <;> by_cases h23 : s2 = s3
    · subst h12; subst h23
      rw [if_pos rfl] at h1 h2 ⊢
      simp only [decide_eq_true_eq] at h1 h2 ⊢
      omega
    · subst h12
      rw [if_neg h23] at h2
      rw [if_neg h23]
      exact h2
    · subst h23
      rw [if_neg h12] at h1
      rw [if_neg h12]
      exact h1
    · rw [if_neg h12] at h1
      rw [if_neg h23] at h2
      have h13 := lexLt_trans h1 h2
      by_cases hs : s1 = s3
      · subst hs
        rw [lexLt_irrefl s1] at h13
        cases h13
      · rw [if_neg hs]
        exact h13
  | .inl _, .inl _, .inr _, _, _ => rfl
  | .inl _, .inr _, .inl _, _, h2 => by simp [idKeyLe] at h2
  | .inl _, .inr _, .inr _, _, _ => rfl
  | .inr _, .inl _, _, h1, _ => by simp [idKeyLe] at h1
  | .inr _, .inr _, .inl _, _, h2 => by simp [idKeyLe] at h2
  | .inr n1, .inr n2, .inr n3, h1, h2 => by
    simp only [idKeyLe, decide_eq_true_eq] at h1 h2 ⊢
    omega

instance : IsTotal (IDKey × CandidateProp) idPairLe where
  total a b := idKeyLe_total a.1 b.1

instance : IsTrans (IDKey × CandidateProp) idPairLe where
  trans _ _ _ h1 h2 := idKeyLe_trans h1 h2

/-- Rewrite a candidate's target field, keeping everything else. -/
def retag_key (f : String) (p : CandidateProp) : CandidateProp :=
  { p with molecules_key := f }

theorem perm_any_eq {α : Type} {l1 l2 : List α} (h : l1.Perm l2) (P : α → Bool) :
    l1.any P = l2.any P := by
  cases h1 : l1.any P <;> cases h2 : l2.any P <;> try rfl
  · exfalso
    rw [List.any_eq_true] at h2
    obtain ⟨x, hx, hPx⟩ := h2
    have h3 : l1.any P = true := List.any_eq_true.mpr ⟨x, h.symm.subset hx, hPx⟩
    rw [h1] at h3; cases h3
  · exfalso
    rw [List.any_eq_true] at h1
    obtain ⟨x, hx, hPx⟩ := h1
    have h3 : l2.any P = true := List.any_eq_true.mpr ⟨x, h.subset hx, hPx⟩
    rw [h2] at h3; cases h3

theorem any_map_pair (g : CandidateProp → CandidateProp) (P : IDKey → Bool) :
    ∀ props : List CandidateProp,
      ((props.map fun p => (prop_id_key p, g p)).any fun kp => P kp.1)
        = props.any fun p => P (prop_id_key p)
  | [] => rfl
  | p :: ps => by
    simp only [List.map_cons, List.any_cons]
    rw [any_map_pair g P ps]

theorem any_fst_map (g : CandidateProp → CandidateProp) (P : IDKey → Bool) :
    ∀ l : List (IDKey × CandidateProp),
      ((l.map fun kp => (kp.1, g kp.2)).any fun kp => P kp.1)
        = l.any fun kp => P kp.1
  | [] => rfl
  | kp :: l => by
    simp only [List.map_cons, List.any_cons]
    rw [any_fst_map g P l]

/-- C2 (amended): given candidates whose task ids all parse and take one
key shape, with the structured key injective up to task id, the molecule
id is the task id of a candidate with minimal structured key; it depends
only on the multiset of candidates — invariant under every reordering —
and only on their task ids, not on their target fields (computed once
per group, not per field). -/
theorem c2_identity (props props2 : List CandidateProp)
    (hperm : props2.Perm props)
    (hok : ∀ p ∈ props, ID_to_int p.task_id = .ok (prop_id_key p))
    (hhom : (props.any fun p => (prop_id_key p).isLeft) = false
          ∨ (props.any fun p => (prop_id_key p).isRight) = false)
    (hinj : ∀ p ∈ props, ∀ p2 ∈ props,
      prop_id_key p = prop_id_key p2 → p.task_id = p2.task_id) :
    mol_id props2 = mol_id props
    ∧ (props ≠ [] → ∃ w ∈ props, mol_id props = .ok w.task_id
        ∧ ∀ p ∈ props, idKeyLe (prop_id_key w) (prop_id_key p) = true)
    ∧ (∀ f, mol_id (props.map (retag_key f)) = mol_id props) := by
  have hok2 : ∀ p ∈ props2, ID_to_int p.task_id = .ok (prop_id_key p) :=
    fun p hp => hok p (hperm.subset hp)
  have hmixF : (((props.map fun p => (prop_id_key p, p)).any fun kp => kp.1.isLeft) &&
      ((props.map fun p => (prop_id_key p, p)).any fun kp => kp.1.isRight)) = false := by
    rw [any_map_pair (fun p => p), any_map_pair (fun p => p)]
    rcases hhom with h | h
    · rw [h, Bool.false_and]
    · rw [h, Bool.and_false]
  have hmixF2 : (((props2.map fun p => (prop_id_key p, p)).any fun kp => kp.1.isLeft) &&
      ((props2.map fun p => (prop_id_key p, p)).any fun kp => kp.1.isRight)) = false := by
    rw [any_map_pair (fun p => p), any_map_pair (fun p => p),
      perm_any_eq hperm, perm_any_eq hperm]
    rcases hhom with h | h
    · rw [h, Bool.false_and]
    · rw [h, Bool.and_false]
  have hhead : ∀ (ps : List CandidateProp), ps ≠ [] →
      (∀ p ∈ ps, ID_to_int p.task_id = .ok (prop_id_key p)) →
      (((ps.map fun p => (prop_id_key p, p)).any fun kp => kp.1.isLeft) &&
        ((ps.map fun p => (prop_id_key p, p)).any fun kp => kp.1.isRight)) = false →
      ∃ w ∈ ps, mol_id ps = .ok w.task_id
        ∧ ∀ p ∈ ps, idKeyLe (prop_id_key w) (prop_id_key p) = true := by
    intro ps hne hok3 hmix3
    have E3 := map_keys_ok hok3
    have hkne : (ps.map fun p => (prop_id_key p, p)) ≠ [] := by
      intro h
      exact hne (List.map_eq_nil_iff.mp h)
    obtain ⟨w, t, Es, hmem, hall⟩ := sort_head_min (r := idPairLe) hkne
    obtain ⟨pw, hpw, hweq⟩ := List.mem_map.mp hmem
    refine ⟨pw, hpw, ?_, ?_⟩
    · unfold mol_id
      rw [E3]
      dsimp only []
      rw [hmix3, if_neg (by simp), Es, ← hweq]
    · intro p hp
      have hpmem : (prop_id_key p, p) ∈ ps.map (fun p => (prop_id_key p, p)) :=
        List.mem_map.mpr ⟨p, hp, rfl⟩
      have h5 := hall _ hpmem
      rw [← hweq] at h5
      exact h5
  refine ⟨?_, fun hne => hhead props hne hok hmixF, ?_⟩
  · by_cases hne : props = []
    · subst hne
      rw [hperm.eq_nil]
    · have hne2 : props2 ≠ [] := fun h => hne (by
        rw [h] at hperm
        exact hperm.symm.eq_nil)
      obtain ⟨w1, hw1mem, hmolid1, hall1⟩ := hhead props hne hok hmixF
      obtain ⟨w2, hw2mem, hmolid2, hall2⟩ := hhead props2 hne2 hok2 hmixF2
      rw [hmolid1, hmolid2]
      have hw2p : w2 ∈ props := hperm.subset hw2mem
      have hw1p2 : w1 ∈ props2 := hperm.symm.subset hw1mem
      have hk12 := hall1 w2 hw2p
      have hk21 := hall2 w1 hw1p2
      have hkeq : prop_id_key w2 = prop_id_key w1 := idKeyLe_antisym hk21 hk12
      rw [hinj w2 hw2p w1 hw1mem hkeq]
  · intro f
    have hokg : ∀ p ∈ props.map (retag_key f),
        ID_to_int p.task_id = .ok (prop_id_key p) := by
      intro p hp
      obtain ⟨q, hq, hgq⟩ := List.mem_map.mp hp
      rw [← hgq]
      exact hok q hq
    have Eg := map_keys_ok hokg
    have E := map_keys_ok hok
    have hmapg : ((props.map (retag_key f)).map fun p => (prop_id_key p, p))
        = (props.map fun p => (prop_id_key p, p)).map
          (fun kp => (kp.1, retag_key f kp.2)) := by
      rw [List.map_map, List.map_map]
      rfl
    rw [hmapg] at Eg
    unfold mol_id
    rw [Eg, E]
    dsimp only []
    rw [any_fst_map (retag_key f), any_fst_map (retag_key f)]
    by_cases hmix : (((props.map fun p => (prop_id_key p, p)).any fun kp => kp.1.isLeft) &&
        ((props.map fun p => (prop_id_key p, p)).any fun kp => kp.1.isRight)) = true
    · rw [hmix]
      rfl
    · have hmixf : (((props.map fun p => (prop_id_key p, p)).any fun kp => kp.1.isLeft) &&
          ((props.map fun p => (prop_id_key p, p)).any fun kp => kp.1.isRight)) = false := by
        simpa using hmix
      rw [hmixf, if_neg (by simp), if_neg (by simp)]
      rw [← List.map_insertionSort idPairLe idPairLe
        (fun kp : IDKey × CandidateProp => (kp.1, retag_key f kp.2))
        (props.map fun p => (prop_id_key p, p))
        (fun a _ b _ => Iff.rfl)]
      rcases E4 : List.insertionSort idPairLe (props.map fun p => (prop_id_key p, p))
        with _ | ⟨w, t⟩
      · rfl
      · rfl

deriving instance DecidableEq for Except

def cxProp3 : CandidateProp :=
  { value := .int 1, task_type := "opt", task_id := .str "eg-3", quality_score := 1,
    track := false, aggregate := false, last_updated := 1, energy := 0,
    molecules_key := "f" }

def cxProp03 : CandidateProp :=
  { value := .int 2, task_type := "opt", task_id := .str "eg-03", quality_score := 1,
    track := false, aggregate := false, last_updated := 1, energy := 0,
    molecules_key := "f" }

/-- C2 counterexample: the distinct ids eg-3 and eg-03 share the
structured key (eg, 3), the stable sort keeps the first-listed one in
front, and the selected molecule id changes under reordering — so the
identity is not invariant under every reordering of the candidate
list. -/
theorem c2_counterexample :
    mol_id [cxProp3, cxProp03] = .ok (.str "eg-3")
    ∧ mol_id [cxProp03, cxProp3] = .ok (.str "eg-03")
    ∧ TaskId.str "eg-3" ≠ TaskId.str "eg-03" :=
  ⟨rfl, rfl, by decide⟩

def wProp12 : CandidateProp :=
  { value := .int 1, task_type := "opt", task_id := .str "eg-12", quality_score := 1,
    track := false, aggregate := false, last_updated := 1, energy := 0,
    molecules_key := "f" }

def wProp3 : CandidateProp :=
  { value := .int 2, task_type := "opt", task_id := .str "eg-3", quality_score := 1,
    track := false, aggregate := false, last_updated := 1, energy := 0,
    molecules_key := "g" }

def wProp9 : CandidateProp :=
  { value := .int 3, task_type := "opt", task_id := .str "eg-9", quality_score := 1,
    track := false, aggregate := false, last_updated := 1, energy := 0,
    molecules_key := "f" }

def wPropAbc : CandidateProp :=
  { value := .int 4, task_type := "opt", task_id := .str "abc-1", quality_score := 1,
    track := false, aggregate := false, last_updated := 1, energy := 0,
    molecules_key := "g" }

/-- Witness for C2 on the spec's examples: among eg-12 and eg-3 the
winner is eg-3 (lower number, same prefix), and among eg-9 and abc-1
the winner is abc-1 (prefixes compare before numbers). -/
theorem c2_witness :
    ([wProp3, wProp12].Perm [wProp12, wProp3]
      ∧ (∀ p ∈ [wProp12, wProp3], ID_to_int p.task_id = .ok (prop_id_key p))
      ∧ (([wProp12, wProp3].any fun p => (prop_id_key p).isLeft) = false
        ∨ ([wProp12, wProp3].any fun p => (prop_id_key p).isRight) = false)
      ∧ (∀ p ∈ [wProp12, wProp3], ∀ p2 ∈ [wProp12, wProp3],
          prop_id_key p = prop_id_key p2 → p.task_id = p2.task_id))
    ∧ (mol_id [wProp3, wProp12] = mol_id [wProp12, wProp3]
      ∧ ([wProp12, wProp3] ≠ [] → ∃ w ∈ [wProp12, wProp3],
          mol_id [wProp12, wProp3] = .ok w.task_id
          ∧ ∀ p ∈ [wProp12, wProp3],
              idKeyLe (prop_id_key w) (prop_id_key p) = true)
      ∧ (∀ f, mol_id ([wProp12, wProp3].map (retag_key f))
          = mol_id [wProp12, wProp3]))
    ∧ mol_id [wProp12, wProp3] = .ok (.str "eg-3")
    ∧ mol_id [wProp9, wPropAbc] = .ok (.str "abc-1") :=
  ⟨⟨by decide, by decide, by decide, by decide⟩,
    c2_identity [wProp12, wProp3] [wProp3, wProp12]
      (by decide) (by decide) (by decide) (by decide),
    rfl, rfl⟩
